import Mathlib

/-!
# Expression templates of `expression.hpp`

A verification development for the deferred-evaluation combinator library in
`src/expression.hpp`.

The C++ library builds closures; a tree is a nest of lambdas that capture their
already coerced operands.  Here every lambda of the header is one constructor of
`Node` (the closure, defunctionalised) and the body of the lambda is the matching
branch of `eval`.  Invocation arguments are references to objects in a `Store`,
so that "by reference" results, writes through placeholders and variables, and
the lifetime of temporaries are all explicit.

Conventions of the embedding:

* `int` is a 32 bit signed integer; a result outside its range is undefined
  behaviour (`Err.undefined`), as are reads of dead or missing storage and
  division by zero.
* C++ rejects ill-typed operator applications when a tree is instantiated; the
  embedding is dynamically typed and reports them as `Err.illTyped` when the
  operator is reached.  The placeholder `static_assert` is kept static: see
  `instantiates` and `invoke`.
* Which operator a body `lhs(args...) OP rhs(args...)` applies is a matter of
  the operand types: the operator function of the header when an operand call
  yields an expression object (`yieldsNode`), the built-in operator otherwise.
* Where C++ leaves the order of two operand evaluations unspecified, the order
  is a parameter (`Sequencing`); where C++17 fixes it, the fixed order is used.
  An operand of a built-in operator is converted to a value as part of its own
  evaluation.
* Callees handed to `bind` and to `->*` are caller code, not library code: they
  are a table `Funs` of functions on values.
* Nodes are values of the embedding, not objects in the store: the reference
  that `constant::operator()` returns is represented by the value it refers
  to, and neither the address of storage owned by a node nor the rebinding of
  a node in place is represented.
-/

namespace expr

/-! ## Values and storage -/

/-- Failure modes of an invocation. -/
inductive Err
  /-- The `static_assert(I < sizeof...(args), "Placeholder out of range")`. -/
  | arity
  /-- No such operator for the operand types (a compile error in C++). -/
  | illTyped
  /-- Undefined behaviour: dead or missing storage, overflow, division by zero. -/
  | undefined
  /-- Legal C++ that lies outside this embedding (floating point arithmetic,
  the member operators and the call of an expression object that a call
  yielded, the address of storage owned by a node, ...). -/
  | unmodelled
  deriving DecidableEq

/-- Run-time values.  `flt` carries the bit pattern of a `float` and is only
passed around; `ptr loc path` points at the sub-object `path` of the object
stored at `loc`; `arr` is an array (built-in or `std::array`), `rcd` a class
object with its data members in declaration order; `fn id` is a callable,
named by its index in the table of callees. -/
inductive Val
  | int (n : Int)
  | bool (b : Bool)
  | flt (bits : Nat)
  | ptr (loc : Nat) (path : List Nat)
  | arr (elems : List Val)
  | rcd (fields : List Val)
  | fn (id : Nat)

/-- An lvalue: the object at `loc`, or the sub-object of it selected by `path`
(array indices and data-member positions, outermost first). -/
structure LVal where
  loc : Nat
  path : List Nat
  deriving DecidableEq

/-- Memory: cell `i` holds a live object or is dead (`none`). -/
abbrev Store := List (Option Val)

/-- The table of callees: `funs id vs` is the result of calling callable `id`
on the argument values `vs` (for a member function the object comes first), or
`none` when the call is ill-formed. -/
abbrev Funs := Nat → List Val → Option Val

/-- Elements of an array, data members of a class object. -/
def children : Val → Option (List Val)
  | .arr es => some es
  | .rcd fs => some fs
  | _ => none

/-- The aggregate `v` with its sub-objects replaced by `es`. -/
def rebuild : Val → List Val → Val
  | .arr _, es => .arr es
  | .rcd _, es => .rcd es
  | v, _ => v

/-- The sub-object of `v` at `path`. -/
def getPath : Val → List Nat → Option Val
  | v, [] => some v
  | v, k :: p =>
    match children v with
    | some es =>
      match es[k]? with
      | some e => getPath e p
      | none => none
    | none => none

/-- The value `v` with the sub-object at `path` replaced by `w`. -/
def setPath : Val → List Nat → Val → Option Val
  | _, [], w => some w
  | v, k :: p, w =>
    match children v with
    | some es =>
      match es[k]? with
      | some e =>
        match setPath e p w with
        | some e' => some (rebuild v (es.set k e'))
        | none => none
      | none => none
    | none => none

/-- Read through an lvalue; dead or missing storage is undefined behaviour. -/
def read (s : Store) (l : LVal) : Except Err Val :=
  match s[l.loc]? with
  | some (some v) =>
    match getPath v l.path with
    | some w => .ok w
    | none => .error .undefined
  | _ => .error .undefined

/-- Write through an lvalue. -/
def write (s : Store) (l : LVal) (w : Val) : Except Err Store :=
  match s[l.loc]? with
  | some (some v) =>
    match setPath v l.path w with
    | some v' => .ok (s.set l.loc (some v'))
    | none => .error .undefined
  | _ => .error .undefined

/-! ## Built-in operators on values -/

def INT_MIN : Int := -2147483648

def INT_MAX : Int := 2147483647

/-- Representable as `int`. -/
def inRange (n : Int) : Bool := decide (INT_MIN ≤ n ∧ n ≤ INT_MAX)

/-- An `int` result; signed overflow is undefined behaviour. -/
def mkInt (n : Int) : Except Err Val :=
  if inRange n then .ok (.int n) else .error .undefined

/-- Reduction modulo 2^32 into the range of `int` (C++20 left shift). -/
def wrap32 (n : Int) : Int := (n + 2147483648) % 4294967296 - 2147483648

/-- Integral promotion. -/
def toInt : Val → Option Int
  | .int n => some n
  | .bool b => some (if b then 1 else 0)
  | _ => none

/-- Contextual conversion to `bool`. -/
def toBool : Val → Except Err Bool
  | .bool b => .ok b
  | .int n => .ok (decide (n ≠ 0))
  | .ptr _ _ => .ok true
  | .flt _ => .error .unmodelled
  | _ => .error .illTyped

/-- Implicit conversion of `new` to the type of the object currently holding
`old`, as done by assignment. -/
def convertTo (old new : Val) : Except Err Val :=
  match old, new with
  | .int _, .int n => .ok (.int n)
  | .int _, .bool b => .ok (.int (if b then 1 else 0))
  | .bool _, .bool b => .ok (.bool b)
  | .bool _, .int n => .ok (.bool (decide (n ≠ 0)))
  | .bool _, .ptr _ _ => .ok (.bool true)
  | .flt _, .flt x => .ok (.flt x)
  | .ptr _ _, .ptr l p => .ok (.ptr l p)
  | .arr es, .arr es' => if es.length = es'.length then .ok (.arr es') else .error .illTyped
  | .rcd fs, .rcd fs' => if fs.length = fs'.length then .ok (.rcd fs') else .error .illTyped
  | .fn _, .fn f => .ok (.fn f)
  | .flt _, _ => .error .unmodelled
  | _, .flt _ => .error .unmodelled
  | _, _ => .error .illTyped

/-- Pointer plus offset: moves within the array the pointer points into. -/
def ptrAdd (loc : Nat) (path : List Nat) (k : Int) : Except Err Val :=
  match path.getLast? with
  | none => .error .unmodelled
  | some i =>
    if 0 ≤ (i : Int) + k then .ok (.ptr loc (path.dropLast ++ [((i : Int) + k).toNat]))
    else .error .undefined

/-- The unary operators of `EXPR_UN_OP`. -/
inductive UnOp
  | plus | neg | lnot | bnot | deref | addr | preInc | preDec
  deriving DecidableEq

/-- The unary operators of `EXPR_UN_OP_POST`. -/
inductive PostOp
  | postInc | postDec
  deriving DecidableEq

/-- The binary operators of `EXPR_BIN_OP`, in the order of the header. -/
inductive BinOp
  | add | sub | mul | div | mod | comma | band | bor | bxor | shl | shr
  | lt | le | gt | ge | eq | ne | land | lor
  | addAssign | subAssign | mulAssign | divAssign | modAssign
  | andAssign | orAssign | xorAssign | shlAssign | shrAssign
  deriving DecidableEq

/-- For a compound assignment `a op= b`, the operator `op`. -/
def BinOp.base : BinOp → Option BinOp
  | .addAssign => some .add
  | .subAssign => some .sub
  | .mulAssign => some .mul
  | .divAssign => some .div
  | .modAssign => some .mod
  | .andAssign => some .band
  | .orAssign => some .bor
  | .xorAssign => some .bxor
  | .shlAssign => some .shl
  | .shrAssign => some .shr
  | _ => none

/-- Built-in binary operators on two `int`s. -/
def intOp (op : BinOp) (a b : Int) : Except Err Val :=
  match op with
  | .add => mkInt (a + b)
  | .sub => mkInt (a - b)
  | .mul => mkInt (a * b)
  | .div => if b = 0 then .error .undefined else mkInt (Int.tdiv a b)
  | .mod =>
    if b = 0 then .error .undefined
    else if inRange (Int.tdiv a b) then .ok (.int (Int.tmod a b))
    else .error .undefined
  | .band => .ok (.int (Int.land a b))
  | .bor => .ok (.int (Int.lor a b))
  | .bxor => .ok (.int (Int.xor a b))
  | .shl =>
    if 0 ≤ b ∧ b < 32 then .ok (.int (wrap32 (a * 2 ^ b.toNat))) else .error .undefined
  | .shr =>
    if 0 ≤ b ∧ b < 32 then .ok (.int (a / 2 ^ b.toNat)) else .error .undefined
  | .lt => .ok (.bool (decide (a < b)))
  | .le => .ok (.bool (decide (a ≤ b)))
  | .gt => .ok (.bool (decide (a > b)))
  | .ge => .ok (.bool (decide (a ≥ b)))
  | .eq => .ok (.bool (decide (a = b)))
  | .ne => .ok (.bool (decide (a ≠ b)))
  | _ => .error .illTyped

/-- Built-in binary operators on two values (after lvalue-to-rvalue conversion
and array-to-pointer decay). -/
def applyBin (op : BinOp) (a b : Val) : Except Err Val :=
  match a, b with
  | .ptr l p, .ptr l' p' =>
    match op with
    | .eq => .ok (.bool (decide (l = l' ∧ p = p')))
    | .ne => .ok (.bool (decide (¬ (l = l' ∧ p = p'))))
    | _ => .error .unmodelled
  | .ptr l p, y =>
    match toInt y, op with
    | some k, .add => ptrAdd l p k
    | some k, .sub => ptrAdd l p (-k)
    | _, _ => .error .illTyped
  | x, .ptr l p =>
    match toInt x, op with
    | some k, .add => ptrAdd l p k
    | _, _ => .error .illTyped
  | .flt _, _ => .error .unmodelled
  | _, .flt _ => .error .unmodelled
  | x, y =>
    match toInt x, toInt y with
    | some m, some n => intOp op m n
    | _, _ => .error .illTyped

/-! ## Expression nodes -/

/-- Expression nodes.  `placeholder`, `variable` and `constant` are the three
leaf classes; every other constructor is one lambda of the header, holding what
that lambda captures. -/
inductive Node
  /-- The class `placeholder<I>`. -/
  | placeholder (I : Nat)
  /-- The class `variable<Type>`: the pointer `_var`. -/
  | variable (var : LVal)
  /-- The class `constant<Type>`: the owned `_val`. -/
  | constant (val : Val)
  /-- The lambda of `expression::operator=`: `op(args...) = rhs(args...)`. -/
  | assign (op rhs : Node)
  /-- The lambda of `expression::operator[]`: `op[index(args...)]`. -/
  | index (op index : Node)
  /-- The lambda of `variable::operator=`: `*var = rhs(args...)`. -/
  | varAssign (var : LVal) (rhs : Node)
  /-- The lambda of `variable::operator[]`: `(*var)[index(args...)]`. -/
  | varIndex (var : LVal) (index : Node)
  /-- The lambda of `constant::operator[]`: `val[index(args...)]`. -/
  | constIndex (val : Val) (index : Node)
  /-- The outer lambda of `placeholder::operator->*` for a member function:
  called with the parameters, it returns the bound call. -/
  | memFun (I : Nat) (member : Nat)
  /-- The inner lambda of `placeholder::operator->*` for a member function:
  `std::invoke(member, std::get<I>(std::tie(args...)), params(args...)...)`. -/
  | memCall (I : Nat) (member : Nat) (params : List Node)
  /-- The lambda of `placeholder::operator->*` for a data member (`member` is
  its position in the class): `std::invoke(member, std::get<I>(std::tie(args...)))`. -/
  | memObj (I : Nat) (member : Nat)
  /-- The lambda of `placeholder::operator[]`. -/
  | phIndex (I : Nat) (index : Node)
  /-- The lambda of `placeholder::operator=`. -/
  | phAssign (I : Nat) (rhs : Node)
  /-- The lambda of `bind`: `std::invoke(func(args...), params(args...)...)`. -/
  | bind (func : Node) (params : List Node)
  /-- The lambda of `EXPR_UN_OP(OP)`: `OP rhs(args...)`. -/
  | unOp (op : UnOp) (rhs : Node)
  /-- The lambda of `EXPR_UN_OP_POST(OP)`: `lhs(args...) OP`. -/
  | postOp (op : PostOp) (lhs : Node)
  /-- The lambda of `EXPR_BIN_OP(OP)`: `lhs(args...) OP rhs(args...)`. -/
  | binOp (op : BinOp) (lhs rhs : Node)

/-- What a combinator or a call can be handed: an expression node, an lvalue
naming caller-owned storage, or a temporary. -/
inductive Operand
  | node (n : Node)
  | lvalue (l : LVal)
  | rvalue (v : Val)

/-- The trait `is_expression`. -/
def is_expression : Operand → Bool
  | .node _ => true
  | _ => false

/-- The function `expressify`: a node passes through, an lvalue becomes a
`variable` on its storage, anything else a `constant` owning the value. -/
def expressify : Operand → Node
  | .node n => n
  | .lvalue l => .variable l
  | .rvalue v => .constant v

/-- Inside `operator()` every parameter `args` is a named reference, hence an
lvalue: either an object in the store or an expression object. -/
inductive ArgRef
  | obj (l : LVal)
  | node (n : Node)

/-- The operand that `args...` of `operator()` hands on: always an lvalue. -/
def ArgRef.operand : ArgRef → Operand
  | .obj l => .lvalue l
  | .node n => .node n

/-- The result of evaluating an expression: an lvalue naming an object of the
store, a value (a prvalue, or what a `constant` owns), or an expression
object. -/
inductive Res
  | lv (l : LVal)
  | rv (v : Val)
  | node (n : Node)

/-- Outcome of a computation on the store: the store is kept on failure too, so
that the effects that happened before the failure stay visible. -/
abbrev Out (α : Type) := Except Err α × Store

/-- Sequencing of two computations. -/
def andThen {α β : Type} (x : Out α) (k : α → Store → Out β) : Out β :=
  match x with
  | (.ok a, s) => k a s
  | (.error e, s) => (.error e, s)

/-- A computation without effect on the store. -/
def still {α : Type} (x : Except Err α) (s : Store) : Out α := (x, s)

/-- Lvalue-to-rvalue conversion. -/
def load (s : Store) : Res → Except Err Val
  | .rv v => .ok v
  | .lv l => read s l
  | .node _ => .error .unmodelled

/-- Conversion of an operand of a built-in operator to a prvalue:
lvalue-to-rvalue conversion, and array-to-pointer decay for an array lvalue. -/
def rval (s : Store) : Res → Except Err Val
  | .rv v => .ok v
  | .lv l =>
    match read s l with
    | .ok (.arr _) => .ok (.ptr l.loc (l.path ++ [0]))
    | r => r
  | .node _ => .error .unmodelled

/-- Lvalue-to-rvalue conversion of a pack of results. -/
def loadAll (s : Store) : List Res → Except Err (List Val)
  | [] => .ok []
  | r :: rs =>
    match load s r with
    | .ok v =>
      match loadAll s rs with
      | .ok vs => .ok (v :: vs)
      | .error e => .error e
    | .error e => .error e

/-- Contextual conversion of a result to `bool`. -/
def truth (s : Store) (r : Res) : Except Err Bool :=
  match rval s r with
  | .ok v => toBool v
  | .error e => .error e

/-- Built-in `l = v`: converts `v` to the type of the target, stores it, and
yields the target. -/
def assignTo (l : Res) (v : Val) (s : Store) : Out Res :=
  match l with
  | .lv l =>
    match read s l with
    | .ok old =>
      match convertTo old v with
      | .ok w =>
        match write s l w with
        | .ok s' => (.ok (.lv l), s')
        | .error e => (.error e, s)
      | .error e => (.error e, s)
    | .error e => (.error e, s)
  | .rv _ => (.error .illTyped, s)
  | .node _ => (.error .unmodelled, s)

/-- Built-in `l op= v` for the operator `op`. -/
def compoundTo (op : BinOp) (l : Res) (v : Val) (s : Store) : Out Res :=
  match l with
  | .lv l =>
    match read s l with
    | .ok old =>
      match applyBin op old v with
      | .ok new =>
        match convertTo old new with
        | .ok w =>
          match write s l w with
          | .ok s' => (.ok (.lv l), s')
          | .error e => (.error e, s)
        | .error e => (.error e, s)
      | .error e => (.error e, s)
    | .error e => (.error e, s)
  | .rv _ => (.error .illTyped, s)
  | .node _ => (.error .unmodelled, s)

/-- Built-in value operator applied to the values of its two operands. -/
def valueOp (op : BinOp) (a b : Val) (s : Store) : Out Res :=
  match applyBin op a b with
  | .ok v => (.ok (.rv v), s)
  | .error e => (.error e, s)

/-- Increment or decrement by `d` of the object an lvalue names: the old value
and the lvalue, in the updated store. -/
def stepBy (d : Int) (r : Res) (s : Store) : Out (Val × LVal) :=
  match r with
  | .lv l =>
    match read s l with
    | .ok (.int n) =>
      match mkInt (n + d) with
      | .ok w =>
        match write s l w with
        | .ok s' => (.ok (.int n, l), s')
        | .error e => (.error e, s)
      | .error e => (.error e, s)
    | .ok (.ptr b p) =>
      match ptrAdd b p d with
      | .ok w =>
        match write s l w with
        | .ok s' => (.ok (.ptr b p, l), s')
        | .error e => (.error e, s)
      | .error e => (.error e, s)
    | .ok (.flt _) => (.error .unmodelled, s)
    | .ok _ => (.error .illTyped, s)
    | .error e => (.error e, s)
  | .rv _ => (.error .illTyped, s)
  | .node _ => (.error .unmodelled, s)

/-- Built-in unary operators written before their operand. -/
def applyUn (op : UnOp) (r : Res) (s : Store) : Out Res :=
  match op with
  | .preInc => andThen (stepBy 1 r s) fun x s' => (.ok (.lv x.2), s')
  | .preDec => andThen (stepBy (-1) r s) fun x s' => (.ok (.lv x.2), s')
  | .addr =>
    match r with
    | .lv l => (.ok (.rv (.ptr l.loc l.path)), s)
    -- a prvalue has no address; the storage of a `constant` has one, which
    -- the embedding does not represent
    | .rv _ => (.error .unmodelled, s)
    | .node _ => (.error .unmodelled, s)
  | .deref =>
    match rval s r with
    | .ok (.ptr b p) => (.ok (.lv ⟨b, p⟩), s)
    | .ok _ => (.error .illTyped, s)
    | .error e => (.error e, s)
  | .lnot =>
    match truth s r with
    | .ok b => (.ok (.rv (.bool (!b))), s)
    | .error e => (.error e, s)
  | .plus =>
    match rval s r with
    | .ok (.ptr b p) => (.ok (.rv (.ptr b p)), s)
    | .ok (.flt _) => (.error .unmodelled, s)
    | .ok v =>
      match toInt v with
      | some n => (.ok (.rv (.int n)), s)
      | none => (.error .illTyped, s)
    | .error e => (.error e, s)
  | .neg =>
    match rval s r with
    | .ok (.flt _) => (.error .unmodelled, s)
    | .ok v =>
      match toInt v with
      | some n =>
        match mkInt (-n) with
        | .ok w => (.ok (.rv w), s)
        | .error e => (.error e, s)
      | none => (.error .illTyped, s)
    | .error e => (.error e, s)
  | .bnot =>
    match rval s r with
    | .ok v =>
      match toInt v with
      | some n => (.ok (.rv (.int (-n - 1))), s)
      | none => (.error .illTyped, s)
    | .error e => (.error e, s)

/-- Built-in increment and decrement written after their operand: the old value
is the result. -/
def applyPost (op : PostOp) (r : Res) (s : Store) : Out Res :=
  match op with
  | .postInc => andThen (stepBy 1 r s) fun x s' => (.ok (.rv x.1), s')
  | .postDec => andThen (stepBy (-1) r s) fun x s' => (.ok (.rv x.1), s')

/-- Built-in `base[i]`. -/
def subscript (base : Res) (i : Val) (s : Store) : Except Err Res :=
  match toInt i with
  | none => .error .illTyped
  | some k =>
    match base with
    | .lv l =>
      match read s l with
      | .ok (.arr es) =>
        if 0 ≤ k ∧ k.toNat < es.length then .ok (.lv ⟨l.loc, l.path ++ [k.toNat]⟩)
        else .error .undefined
      | .ok (.ptr b p) =>
        match ptrAdd b p k with
        | .ok (.ptr b' p') => .ok (.lv ⟨b', p'⟩)
        | .ok _ => .error .illTyped
        | .error e => .error e
      | .ok _ => .error .illTyped
      | .error e => .error e
    | .rv (.arr es) =>
      if 0 ≤ k then
        match es[k.toNat]? with
        | some e => .ok (.rv e)
        | none => .error .undefined
      else .error .undefined
    | .rv (.ptr b p) =>
      match ptrAdd b p k with
      | .ok (.ptr b' p') => .ok (.lv ⟨b', p'⟩)
      | .ok _ => .error .illTyped
      | .error e => .error e
    | .rv _ => .error .illTyped
    | .node _ => .error .unmodelled

/-- The call `std::invoke(member, obj)` for a data member: the member of the
object, or of the object a pointer points at. -/
def memberOf (member : Nat) (obj : Res) (s : Store) : Except Err Res :=
  match obj with
  | .lv l =>
    match read s l with
    | .ok (.rcd fs) =>
      if member < fs.length then .ok (.lv ⟨l.loc, l.path ++ [member]⟩)
      else .error .illTyped
    | .ok (.ptr b p) =>
      match read s ⟨b, p⟩ with
      | .ok (.rcd fs) =>
        if member < fs.length then .ok (.lv ⟨b, p ++ [member]⟩) else .error .illTyped
      | .ok _ => .error .illTyped
      | .error e => .error e
    | .ok _ => .error .illTyped
    | .error e => .error e
  | .rv (.rcd fs) =>
    match fs[member]? with
    | some f => .ok (.rv f)
    | none => .error .illTyped
  | .rv _ => .error .illTyped
  | .node _ => .error .unmodelled

/-- A call of callee `f` of the table on argument values. -/
def callFn (funs : Funs) (f : Nat) (vs : List Val) : Except Err Val :=
  match funs f vs with
  | some v => .ok v
  | none => .error .illTyped

/-- The expression `std::get<I>(std::tie(args...))`: a reference to argument
`I`.  Its `static_assert` is checked by `instantiates` before anything runs. -/
def getArg (I : Nat) (args : List ArgRef) : Except Err Res :=
  match args[I]? with
  | some (.obj l) => .ok (.lv l)
  | some (.node n) => .ok (.node n)
  | none => .error .arity

/-! ## The combinators -/

/-- The placeholder constants `_1` ... `_7`. -/
def _1 : Node := .placeholder 0
def _2 : Node := .placeholder 1
def _3 : Node := .placeholder 2
def _4 : Node := .placeholder 3
def _5 : Node := .placeholder 4
def _6 : Node := .placeholder 5
def _7 : Node := .placeholder 6

/-- The operators of `EXPR_UN_OP`: available when the operand is a node. -/
def unary (op : UnOp) (rhs : Operand) : Option Node :=
  if is_expression rhs then some (.unOp op (expressify rhs)) else none

/-- The operators of `EXPR_UN_OP_POST`. -/
def postfixOp (op : PostOp) (lhs : Operand) : Option Node :=
  if is_expression lhs then some (.postOp op (expressify lhs)) else none

/-- The operators of `EXPR_BIN_OP`: available when at least one operand is a
node; both operands are coerced. -/
def binary (op : BinOp) (lhs rhs : Operand) : Option Node :=
  if is_expression lhs || is_expression rhs then
    some (.binOp op (expressify lhs) (expressify rhs))
  else none

/-- The member `operator=` of the node classes; `constant` has none.  Between
two `variable` nodes overload resolution takes the copy assignment of the
class, not the member template: the left node is rebound to the storage of the
right one and is itself the result. -/
def assignOp : Node → Operand → Option Node
  | .placeholder I, rhs => some (.phAssign I (expressify rhs))
  | .variable _, .node (.variable var) => some (.variable var)
  | .variable var, rhs => some (.varAssign var (expressify rhs))
  | .constant _, _ => none
  | op, rhs => some (.assign op (expressify rhs))

/-- The member `operator[]` of the node classes. -/
def indexOp : Node → Operand → Node
  | .placeholder I, index => .phIndex I (expressify index)
  | .variable var, index => .varIndex var (expressify index)
  | .constant val, index => .constIndex val (expressify index)
  | op, index => .index op (expressify index)

/-- A pointer to member: a member function (by its index in the table of
callees) or a data member (by its position in the class). -/
inductive Member
  | function (f : Nat)
  | object (i : Nat)
  deriving DecidableEq

/-- The member `operator->*`, which only `placeholder` has. -/
def arrowStar : Node → Member → Option Node
  | .placeholder I, .function f => some (.memFun I f)
  | .placeholder I, .object i => some (.memObj I i)
  | _, _ => none

/-- The function `bind`. -/
def bind (func : Operand) (params : List Operand) : Node :=
  .bind (expressify func) (params.map expressify)

/-! ## Invocation -/

/-- The choices C++ leaves to the implementation.  `operandsLeftFirst`: whether
the left operand of an arithmetic, bitwise or relational operator is evaluated
before the right one (the two evaluations are indeterminately sequenced).
`argumentsLeftFirst`: whether the arguments of `std::invoke` are evaluated first
to last or last to first. -/
structure Sequencing where
  operandsLeftFirst : Bool
  argumentsLeftFirst : Bool
  deriving DecidableEq

/-- The operand that a result is when it is handed to an operator function of
the header: a reference result is an lvalue, a prvalue a temporary. -/
def Res.operand : Res → Operand
  | .lv l => .lvalue l
  | .rv v => .rvalue v
  | .node n => .node n

/-- The result of an operator function of the header, when one is viable. -/
def built : Option Node → Except Err Res
  | some n => .ok (.node n)
  | none => .error .unmodelled

/-- Whether argument `I` of the call is an expression object. -/
def isNodeArg (I : Nat) (args : List ArgRef) : Bool :=
  match args[I]? with
  | some (.node _) => true
  | _ => false

/-- Whether the type of the call `t(args...)` is an expression type.  This is
what overload resolution looks at in `lhs(args...) OP rhs(args...)`: the
operator functions of the header require `is_expression` of an operand type.
A placeholder yields the argument it selects; the outer lambda of a
member-function `->*` yields the bound call; the operator functions and the
member operators of a node yield a node; a `bind` whose callee is itself an
expression object is counted as yielding one (what that callee returns is
outside the embedding); every other body yields an object or a value. -/
def yieldsNode : Node → List ArgRef → Bool
  | .placeholder I, args => isNodeArg I args
  | .variable _, _ => false
  | .constant _, _ => false
  | .assign op _, args => yieldsNode op args
  | .index _ _, _ => false
  | .varAssign _ _, _ => false
  | .varIndex _ _, _ => false
  | .constIndex _ _, _ => false
  | .memFun _ _, _ => true
  | .memCall _ _ _, _ => false
  | .memObj _ _, _ => false
  | .phIndex I _, args => isNodeArg I args
  | .phAssign I _, args => isNodeArg I args
  | .bind func _, args => yieldsNode func args
  | .unOp _ rhs, args => yieldsNode rhs args
  | .postOp _ lhs, args => yieldsNode lhs args
  | .binOp _ lhs rhs, args => yieldsNode lhs args || yieldsNode rhs args

/-- Whether the left operand of `lhs(args...) OP rhs(args...)` is evaluated
before the right one.  `&&`, `||`, `,`, `<<` and `>>` evaluate left first
([expr.log.and], [expr.log.or], [expr.comma], [expr.shift]); in every compound
assignment "the right operand is sequenced before the left operand"
([expr.ass]); for the other operators the order is the implementation's.  An
operator function that is called by writing the operator follows the order of
the built-in operator ([over.match.oper]). -/
def leftOperandFirst (q : Sequencing) (op : BinOp) : Bool :=
  match op with
  | .land => true
  | .lor => true
  | .comma => true
  | .shl => true
  | .shr => true
  | op =>
    match op.base with
    | some _ => false
    | none => q.operandsLeftFirst

/-- What an assignment keeps of its right operand, once the operand has been
evaluated: the value of a scalar object is read at this point; a class object
is bound by reference and is read by the assignment itself. -/
def source (s : Store) : Res → Except Err Res
  | .lv l =>
    match read s l with
    | .ok (.rcd _) => .ok (.lv l)
    | .ok (.arr _) => .ok (.lv l)
    | .ok v => .ok (.rv v)
    | .error e => .error e
  | r => .ok r

/-- The base of a built-in subscript, once it has been evaluated: a pointer
object is read at this point, an array is kept as the object it is. -/
def baseOf (s : Store) : Res → Except Err Res
  | .lv l =>
    match read s l with
    | .ok (.ptr b p) => .ok (.rv (.ptr b p))
    | .ok _ => .ok (.lv l)
    | .error e => .error e
  | r => .ok r

mutual

/-- Instantiation of `operator()` for `n` arguments: every `static_assert(I <
sizeof...(args))` met while the bodies of a tree are instantiated must hold.
All sub-nodes are called with the same pack, so the check reaches the whole
tree, whether or not a branch would run.  The outer lambda of a member-function
`->*` only builds the inner one, so it asserts nothing. -/
def instantiates : Node → Nat → Bool
  | .placeholder I, n => decide (I < n)
  | .variable _, _ => true
  | .constant _, _ => true
  | .assign op rhs, n => instantiates op n && instantiates rhs n
  | .index op index, n => instantiates op n && instantiates index n
  | .varAssign _ rhs, n => instantiates rhs n
  | .varIndex _ index, n => instantiates index n
  | .constIndex _ index, n => instantiates index n
  | .memFun _ _, _ => true
  | .memCall I _ params, n => decide (I < n) && instantiatesAll params n
  | .memObj I _, n => decide (I < n)
  | .phIndex I index, n => decide (I < n) && instantiates index n
  | .phAssign I rhs, n => decide (I < n) && instantiates rhs n
  | .bind func params, n => instantiates func n && instantiatesAll params n
  | .unOp _ rhs, n => instantiates rhs n
  | .postOp _ lhs, n => instantiates lhs n
  | .binOp _ lhs rhs, n => instantiates lhs n && instantiates rhs n

/-- Instantiation of a pack of parameter nodes. -/
def instantiatesAll : List Node → Nat → Bool
  | [], _ => true
  | p :: ps, n => instantiates p n && instantiatesAll ps n

end

mutual

/-- The body of `operator()` of every node kind, on the argument references
`args` and the store `s`.

Which operator `OP` names in a body `lhs(args...) OP rhs(args...)` is settled
by overload resolution.  When the type of an operand call is an expression
type (`yieldsNode`), the operator function of the header is selected: both
operands are evaluated, without short circuit, and the result is the node
that `unary`, `postfixOp` or `binary` builds from them.  Otherwise `OP` is the
built-in operator.

Order of evaluation, as C++17 and later fix it (the header needs C++20):
`leftOperandFirst` for the binary operators; in `E1 = E2` the right operand
comes first ([expr.ass]); in `E1[E2]`, `E1` comes first ([expr.sub]).  An
operand of a built-in operator that needs its value is converted to a prvalue
as part of its own evaluation, that is, before the other operand is evaluated
when it comes first.

A callee of `bind` that is an expression object is invoked by `std::invoke`
on the parameter results; that call is instantiated on its own, so it meets
the placeholder assertion when the callee selects an argument the parameters
do not supply.  The compiler finds this when the tree is instantiated; here it
is reported when the call is reached.  Running such a callee is outside the
embedding. -/
def eval (q : Sequencing) (funs : Funs) : Node → List ArgRef → Store → Out Res
  | .placeholder I, args, s => still (getArg I args) s
  | .variable var, _, s => (.ok (.lv var), s)
  | .constant val, _, s => (.ok (.rv val), s)
  | .assign op rhs, args, s =>
    andThen (eval q funs rhs args s) fun r s1 =>
      andThen (still (source s1 r) s1) fun src s1 =>
        andThen (eval q funs op args s1) fun l s2 =>
          andThen (still (load s2 src) s2) fun v s2 => assignTo l v s2
  | .index _ _, _, s =>
    -- the body applies the subscript to the closure object itself, not to
    -- its result: no closure has a subscript operator
    (.error .illTyped, s)
  | .varAssign var rhs, args, s =>
    andThen (eval q funs rhs args s) fun r s1 =>
      andThen (still (load s1 r) s1) fun v s1 => assignTo (.lv var) v s1
  | .varIndex var index, args, s =>
    andThen (still (baseOf s (.lv var)) s) fun base s =>
      andThen (eval q funs index args s) fun i s1 =>
        andThen (still (rval s1 i) s1) fun k s1 => still (subscript base k s1) s1
  | .constIndex val index, args, s =>
    andThen (eval q funs index args s) fun i s1 =>
      andThen (still (rval s1 i) s1) fun k s1 => still (subscript (.rv val) k s1) s1
  | .memFun I member, args, s =>
    (.ok (.node (.memCall I member (args.map fun a => expressify a.operand))), s)
  | .memCall I member params, args, s =>
    andThen (still (getArg I args) s) fun obj s =>
      andThen (evalPack q funs params args s) fun rs s1 =>
        andThen (still (loadAll s1 (obj :: rs)) s1) fun vs s1 =>
          andThen (still (callFn funs member vs) s1) fun v s1 => (.ok (.rv v), s1)
  | .memObj I member, args, s =>
    andThen (still (getArg I args) s) fun obj s => still (memberOf member obj s) s
  | .phIndex I index, args, s =>
    andThen (still (getArg I args) s) fun arg s =>
      andThen (still (baseOf s arg) s) fun base s =>
        andThen (eval q funs index args s) fun i s1 =>
          andThen (still (rval s1 i) s1) fun k s1 => still (subscript base k s1) s1
  | .phAssign I rhs, args, s =>
    andThen (still (getArg I args) s) fun target s =>
      andThen (eval q funs rhs args s) fun r s1 =>
        andThen (still (load s1 r) s1) fun v s1 => assignTo target v s1
  | .bind func params, args, s =>
    andThen
      (if q.argumentsLeftFirst then
        andThen (eval q funs func args s) fun f s1 =>
          andThen (evalPack q funs params args s1) fun rs s2 => (.ok (f, rs), s2)
      else
        andThen (evalPack q funs params args s) fun rs s1 =>
          andThen (eval q funs func args s1) fun f s2 => (.ok (f, rs), s2))
      fun x s3 =>
        match x.1 with
        | .node callee =>
          if instantiates callee x.2.length then (.error .unmodelled, s3)
          else (.error .arity, s3)
        | c =>
          andThen (still (load s3 c) s3) fun f s3 =>
            andThen (still (loadAll s3 x.2) s3) fun vs s3 =>
              match f with
              | .fn id => andThen (still (callFn funs id vs) s3) fun v s3 => (.ok (.rv v), s3)
              | _ => (.error .illTyped, s3)
  | .unOp op rhs, args, s =>
    andThen (eval q funs rhs args s) fun r s1 =>
      match unary op r.operand with
      | some n => (.ok (.node n), s1)
      | none => applyUn op r s1
  | .postOp op lhs, args, s =>
    andThen (eval q funs lhs args s) fun l s1 =>
      match postfixOp op l.operand with
      | some n => (.ok (.node n), s1)
      | none => applyPost op l s1
  | .binOp op lhs rhs, args, s =>
    if yieldsNode lhs args || yieldsNode rhs args then
      andThen
        (if leftOperandFirst q op then
          andThen (eval q funs lhs args s) fun l s1 =>
            andThen (eval q funs rhs args s1) fun r s2 => (.ok (l, r), s2)
        else
          andThen (eval q funs rhs args s) fun r s1 =>
            andThen (eval q funs lhs args s1) fun l s2 => (.ok (l, r), s2))
        fun x s2 => still (built (binary op x.1.operand x.2.operand)) s2
    else
      match op with
      | .land =>
        andThen (eval q funs lhs args s) fun l s1 =>
          andThen (still (truth s1 l) s1) fun a s1 =>
            if a then
              andThen (eval q funs rhs args s1) fun r s2 =>
                andThen (still (truth s2 r) s2) fun b s2 => (.ok (.rv (.bool b)), s2)
            else (.ok (.rv (.bool false)), s1)
      | .lor =>
        andThen (eval q funs lhs args s) fun l s1 =>
          andThen (still (truth s1 l) s1) fun a s1 =>
            if a then (.ok (.rv (.bool true)), s1)
            else
              andThen (eval q funs rhs args s1) fun r s2 =>
                andThen (still (truth s2 r) s2) fun b s2 => (.ok (.rv (.bool b)), s2)
      | .comma =>
        andThen (eval q funs lhs args s) fun _ s1 => eval q funs rhs args s1
      | op =>
        match op.base with
        | some b =>
          andThen (eval q funs rhs args s) fun r s1 =>
            andThen (still (rval s1 r) s1) fun v s1 =>
              andThen (eval q funs lhs args s1) fun l s2 => compoundTo b l v s2
        | none =>
          if leftOperandFirst q op then
            andThen (eval q funs lhs args s) fun l s1 =>
              andThen (still (rval s1 l) s1) fun a s1 =>
                andThen (eval q funs rhs args s1) fun r s2 =>
                  andThen (still (rval s2 r) s2) fun b s2 => valueOp op a b s2
          else
            andThen (eval q funs rhs args s) fun r s1 =>
              andThen (still (rval s1 r) s1) fun b s1 =>
                andThen (eval q funs lhs args s1) fun l s2 =>
                  andThen (still (rval s2 l) s2) fun a s2 => valueOp op a b s2

/-- The pack expansion `params(args...)...`: every parameter node is invoked on
the same arguments, first to last or last to first. -/
def evalPack (q : Sequencing) (funs : Funs) : List Node → List ArgRef → Store → Out (List Res)
  | [], _, s => (.ok [], s)
  | p :: ps, args, s =>
    if q.argumentsLeftFirst then
      andThen (eval q funs p args s) fun r s1 =>
        andThen (evalPack q funs ps args s1) fun rs s2 => (.ok (r :: rs), s2)
    else
      andThen (evalPack q funs ps args s) fun rs s1 =>
        andThen (eval q funs p args s1) fun r s2 => (.ok (r :: rs), s2)

end

/-- Binding of the call arguments to the parameters `Args&&... args`: a
temporary is materialised in a fresh cell, an lvalue is bound as it is. -/
def materialize : List Operand → Store → List ArgRef × Store
  | [], s => ([], s)
  | .rvalue v :: as, s =>
    let r := materialize as (s ++ [some v])
    (.obj ⟨s.length, []⟩ :: r.1, r.2)
  | .lvalue l :: as, s =>
    let r := materialize as s
    (.obj l :: r.1, r.2)
  | .node n :: as, s =>
    let r := materialize as s
    (.node n :: r.1, r.2)

/-- A call `tree(args...)`.  A call that does not instantiate is rejected by
the compiler: nothing runs and the store is untouched.  Otherwise the result
is that of `operator()`, in the store the call leaves, where the temporaries of
the call are still alive. -/
def invoke (q : Sequencing) (funs : Funs) (t : Node) (args : List Operand) (s : Store) :
    Out Res :=
  if instantiates t args.length then
    let r := materialize args s
    eval q funs t r.1 r.2
  else (.error .arity, s)

/-- End of the full-expression that started in a store of `n` cells: the
temporaries created since are destroyed. -/
def endFullExpression (n : Nat) (s : Store) : Store :=
  s.take n ++ List.replicate (s.length - n) none

/-- A call whose value is read before the full-expression ends, as in
`const int res = tree(args...);`. -/
def invokeValue (q : Sequencing) (funs : Funs) (t : Node) (args : List Operand) (s : Store) :
    Out Val :=
  match invoke q funs t args s with
  | (.ok r, s') => (load s' r, endFullExpression s.length s')
  | (.error e, s') => (.error e, endFullExpression s.length s')

/-! ## Notions used by the properties -/

mutual

/-- Whether some body of the tree selects argument `I`, that is, contains
`std::get<I>(std::tie(args...))`: the placeholder itself and the lambdas of its
`operator[]`, `operator=` and `operator->*`.  The outer lambda of a
member-function `->*` selects nothing: calling it is the binding step. -/
def mentions : Node → Nat → Bool
  | .placeholder I, J => decide (I = J)
  | .variable _, _ => false
  | .constant _, _ => false
  | .assign op rhs, J => mentions op J || mentions rhs J
  | .index op index, J => mentions op J || mentions index J
  | .varAssign _ rhs, J => mentions rhs J
  | .varIndex _ index, J => mentions index J
  | .constIndex _ index, J => mentions index J
  | .memFun _ _, _ => false
  | .memCall I _ params, J => decide (I = J) || mentionsAny params J
  | .memObj I _, J => decide (I = J)
  | .phIndex I index, J => decide (I = J) || mentions index J
  | .phAssign I rhs, J => decide (I = J) || mentions rhs J
  | .bind func params, J => mentions func J || mentionsAny params J
  | .unOp _ rhs, J => mentions rhs J
  | .postOp _ lhs, J => mentions lhs J
  | .binOp _ lhs rhs, J => mentions lhs J || mentions rhs J

/-- Whether some node of a pack selects argument `I`. -/
def mentionsAny : List Node → Nat → Bool
  | [], _ => false
  | p :: ps, J => mentions p J || mentionsAny ps J

end

mutual

/-- Whether every callee handed to `bind` in the tree is a plain callable on
the arguments `args`, that is, none of the calls `func(args...)` has an
expression type. -/
def plainCallees : Node → List ArgRef → Bool
  | .placeholder _, _ => true
  | .variable _, _ => true
  | .constant _, _ => true
  | .assign op rhs, args => plainCallees op args && plainCallees rhs args
  | .index op index, args => plainCallees op args && plainCallees index args
  | .varAssign _ rhs, args => plainCallees rhs args
  | .varIndex _ index, args => plainCallees index args
  | .constIndex _ index, args => plainCallees index args
  | .memFun _ _, _ => true
  | .memCall _ _ params, args => plainCalleesAll params args
  | .memObj _ _, _ => true
  | .phIndex _ index, args => plainCallees index args
  | .phAssign _ rhs, args => plainCallees rhs args
  | .bind func params, args =>
    !yieldsNode func args && plainCallees func args && plainCalleesAll params args
  | .unOp _ rhs, args => plainCallees rhs args
  | .postOp _ lhs, args => plainCallees lhs args
  | .binOp _ lhs rhs, args => plainCallees lhs args && plainCallees rhs args

/-- The same for a pack of nodes. -/
def plainCalleesAll : List Node → List ArgRef → Bool
  | [], _ => true
  | p :: ps, args => plainCallees p args && plainCalleesAll ps args

end

/-- What the built-in operator `op` keeps of an operand once the operand has
been invoked: the object itself for the comma and for the left operand of a
compound assignment, the truth value for `&&` and `||`, the value otherwise. -/
def taken (op : BinOp) (left : Bool) (s : Store) (r : Res) : Except Err Res :=
  match op with
  | .comma => .ok r
  | .land => (truth s r).map fun a => .rv (.bool a)
  | .lor => (truth s r).map fun a => .rv (.bool a)
  | op =>
    match op.base, left with
    | some _, true => .ok r
    | _, _ => (rval s r).map .rv

/-- The built-in operator `op` applied to what it kept of its two operands. -/
def applyOp (op : BinOp) (l r : Res) (s : Store) : Out Res :=
  match op with
  | .comma => (.ok r, s)
  | .land =>
    match l, r with
    | .rv (.bool a), .rv (.bool b) => (.ok (.rv (.bool (a && b))), s)
    | _, _ => (.error .illTyped, s)
  | .lor =>
    match l, r with
    | .rv (.bool a), .rv (.bool b) => (.ok (.rv (.bool (a || b))), s)
    | _, _ => (.error .illTyped, s)
  | op =>
    match op.base, l, r with
    | some b, l, .rv v => compoundTo b l v s
    | none, .rv a, .rv b => valueOp op a b s
    | _, _, _ => (.error .illTyped, s)

/-- The left-to-right sequence of a built-in operator: invoke `L` on the
initial store, then `R` on the store `L` left, then apply the operator. -/
def leftToRight (q : Sequencing) (funs : Funs) (op : BinOp) (L R : Node)
    (args : List ArgRef) (s : Store) : Out Res :=
  andThen (eval q funs L args s) fun l s1 =>
    andThen (still (taken op true s1 l) s1) fun a s1 =>
      andThen (eval q funs R args s1) fun r s2 =>
        andThen (still (taken op false s2 r) s2) fun b s2 => applyOp op a b s2

/-- The right-to-left sequence of a built-in operator: invoke `R` on the
initial store, then `L` on the store `R` left, then apply the operator. -/
def rightToLeft (q : Sequencing) (funs : Funs) (op : BinOp) (L R : Node)
    (args : List ArgRef) (s : Store) : Out Res :=
  andThen (eval q funs R args s) fun r s1 =>
    andThen (still (taken op false s1 r) s1) fun b s1 =>
      andThen (eval q funs L args s1) fun l s2 =>
        andThen (still (taken op true s2 l) s2) fun a s2 => applyOp op a b s2

/-- The short-circuit sequence of `&&` (`stop = false`) and `||` (`stop =
true`): invoke `L`; when its truth value is `stop` that is the result, otherwise
invoke `R` on the store `L` left and take its truth value. -/
def shortCircuit (q : Sequencing) (funs : Funs) (stop : Bool) (L R : Node)
    (args : List ArgRef) (s : Store) : Out Res :=
  andThen (eval q funs L args s) fun l s1 =>
    andThen (still (truth s1 l) s1) fun a s1 =>
      if a = stop then (.ok (.rv (.bool stop)), s1)
      else
        andThen (eval q funs R args s1) fun r s2 =>
          andThen (still (truth s2 r) s2) fun b s2 => (.ok (.rv (.bool b)), s2)

/-- The left-to-right sequence when `op` is the operator function of the
header: invoke `L`, then `R` on the store `L` left; the result is the tree
that `binary` builds from the two results. -/
def buildLeftToRight (q : Sequencing) (funs : Funs) (op : BinOp) (L R : Node)
    (args : List ArgRef) (s : Store) : Out Res :=
  andThen (eval q funs L args s) fun l s1 =>
    andThen (eval q funs R args s1) fun r s2 =>
      still (built (binary op l.operand r.operand)) s2

/-- The right-to-left sequence when `op` is the operator function of the
header. -/
def buildRightToLeft (q : Sequencing) (funs : Funs) (op : BinOp) (L R : Node)
    (args : List ArgRef) (s : Store) : Out Res :=
  andThen (eval q funs R args s) fun r s1 =>
    andThen (eval q funs L args s1) fun l s2 =>
      still (built (binary op l.operand r.operand)) s2

/-- Whether the tree `comp`, used as a predicate on two `int`s, answers true:
the call `comp(a, b)` with its result converted to `bool`. -/
def holds (q : Sequencing) (funs : Funs) (comp : Node) (a b : Int) : Bool :=
  match (invokeValue q funs comp [.rvalue (.int a), .rvalue (.int b)] []).1 with
  | .ok v =>
    match toBool v with
    | .ok c => c
    | .error _ => false
  | .error _ => false

/-- The postcondition of `std::sort(first, last, comp)`: the result is a
permutation of the input and no later element is ordered before an earlier
one by `comp`. -/
def is_sorted (q : Sequencing) (funs : Funs) (comp : Node) (input out : List Int) : Prop :=
  out.Perm input ∧ out.Pairwise fun x y => holds q funs comp y x = false

instance (q : Sequencing) (funs : Funs) (comp : Node) (input out : List Int) :
    Decidable (is_sorted q funs comp input out) := by
  unfold is_sorted
  infer_instance

/-- One step of an insertion sort that compares by calling the tree `comp`:
`x` goes before the first element that `comp` does not order before it. -/
def insertBy (q : Sequencing) (funs : Funs) (comp : Node) (x : Int) : List Int → List Int
  | [] => [x]
  | y :: ys =>
    if holds q funs comp y x then y :: insertBy q funs comp x ys else x :: y :: ys

/-- The algorithm `std::sort(first, last, comp)` as an insertion sort.  The
standard fixes the postcondition of the sort (`is_sorted`), not its steps;
every comparison is a call of `comp`. -/
def sort (q : Sequencing) (funs : Funs) (comp : Node) : List Int → List Int
  | [] => []
  | x :: xs => insertBy q funs comp x (sort q funs comp xs)

/-- The binary `std::transform`: the results of `op(x, y)` over the pairs of
corresponding elements, in order. -/
def transform (q : Sequencing) (funs : Funs) (op : Node) : List Val → List Val → Except Err (List Val)
  | x :: xs, y :: ys =>
    match (invokeValue q funs op [.rvalue x, .rvalue y] []).1 with
    | .ok v =>
      match transform q funs op xs ys with
      | .ok vs => .ok (v :: vs)
      | .error e => .error e
    | .error e => .error e
  | _, _ => .ok []

/-- The algorithm `std::for_each(first, last, f)`: calls `f(*it)` on every
element of the range in order; `f` is its own copy of the tree. -/
def for_each (q : Sequencing) (funs : Funs) (f : Node) : List LVal → Store → Out Unit
  | [], s => (.ok (), s)
  | x :: xs, s => andThen (invoke q funs f [.lvalue x] s) fun _ s1 => for_each q funs f xs s1

/-- No running sum `s0 + x1 + ... + xk` leaves the range of `int`. -/
def sumsInRange : Int → List Int → Bool
  | _, [] => true
  | s0, x :: xs => inRange (s0 + x) && sumsInRange (s0 + x) xs

/-- The implementation choices that are most favourable to a left-to-right
reading: left operand first, first argument first. -/
def leftFirst : Sequencing := ⟨true, true⟩

/-- A table with no callee. -/
def noFuns : Funs := fun _ _ => none

/-- The outcome is not the placeholder assertion. -/
def NoArity {α : Type} (x : Out α) : Prop := x.1 ≠ .error .arity

/-- The constructor `constant(const Type& val)`: the node owns a copy of what
the lvalue holds when the node is built. -/
def constantFrom (s : Store) (l : LVal) : Except Err Node :=
  match read s l with
  | .ok v => .ok (.constant v)
  | .error e => .error e

/-- The array `xs` with element `k` increased by one (`xs` itself when `k` is
out of range). -/
def bumpAt (xs : List Int) (k : Nat) : List Int :=
  match xs[k]? with
  | some x => xs.set k (x + 1)
  | none => xs

/-- Two lvalues name objects that do not overlap: they lie in different cells,
or they are sub-objects none of which contains the other. -/
def LVal.disjoint (l l' : LVal) : Prop :=
  l.loc ≠ l'.loc ∨ (¬ l.path <+: l'.path ∧ ¬ l'.path <+: l.path)

/-- A table whose callee 0 is a plain function `int f(int x, int y)` that
returns `x - y`. -/
def minusFuns : Funs := fun f vs =>
  match f, vs with
  | 0, [.int x, .int y] => some (.int (x - y))
  | _, _ => none

/-! ## Properties -/

theorem andThen_eq_ok {α β : Type} (x : Out α) (k : α → Store → Out β) (b : β) (s' : Store) :
    andThen x k = (.ok b, s') ↔ ∃ a s1, x = (.ok a, s1) ∧ k a s1 = (.ok b, s') := by
  rcases x with ⟨r, s⟩
  cases r with
  | error e => simp [andThen]
  | ok a =>
    simp only [andThen]
    constructor
    · intro h
      exact ⟨a, s, rfl, h⟩
    · rintro ⟨a', s1, h1, h2⟩
      simp only [Prod.mk.injEq, Except.ok.injEq] at h1
      rw [h1.1, h1.2]
      exact h2

theorem still_eq_ok {α : Type} (x : Except Err α) (s s' : Store) (a : α) :
    still x s = (.ok a, s') ↔ x = .ok a ∧ s = s' := by
  simp [still]

theorem assignTo_node (n : Node) (v : Val) (s : Store) :
    assignTo (.node n) v s = (.error .unmodelled, s) := rfl

theorem built_not_lv (o : Option Node) (r : Res) (h : built o = .ok r) : ∃ n, r = .node n := by
  cases o with
  | none => simp [built] at h
  | some n => exact ⟨n, by simpa [built] using h.symm⟩

theorem getArg_node (I : Nat) (args : List ArgRef) (r : Res)
    (h : isNodeArg I args = true) (hr : getArg I args = .ok r) : ∃ n, r = .node n := by
  unfold isNodeArg at h
  unfold getArg at hr
  split at h
  · rename_i n hn
    rw [hn] at hr
    exact ⟨n, by simpa using hr.symm⟩
  · simp at h

theorem subscript_node (n : Node) (k : Val) (s : Store) (r : Res) :
    subscript (.node n) k s ≠ .ok r := by
  unfold subscript
  split <;> simp

theorem eval_yieldsNode (q : Sequencing) (funs : Funs) :
    ∀ (t : Node) (args : List ArgRef) (s s' : Store) (r : Res),
      yieldsNode t args = true → eval q funs t args s = (.ok r, s') → ∃ n, r = .node n
  | .placeholder I, args, s, s', r, h, he => by
    simp only [eval, still_eq_ok] at he
    exact getArg_node I args r (by simpa [yieldsNode] using h) he.1
  | .variable _, _, _, _, _, h, _ => by simp [yieldsNode] at h
  | .constant _, _, _, _, _, h, _ => by simp [yieldsNode] at h
  | .assign op rhs, args, s, s', r, h, he => by
    simp only [eval, andThen_eq_ok, still_eq_ok] at he
    obtain ⟨r0, s1, _, src, s1', _, l, s2, hl, v, s2', _, ha⟩ := he
    obtain ⟨n, hn⟩ := eval_yieldsNode q funs op args _ _ l (by simpa [yieldsNode] using h) hl
    subst hn
    simp [assignTo] at ha
  | .index _ _, _, _, _, _, h, _ => by simp [yieldsNode] at h
  | .varAssign _ _, _, _, _, _, h, _ => by simp [yieldsNode] at h
  | .varIndex _ _, _, _, _, _, h, _ => by simp [yieldsNode] at h
  | .constIndex _ _, _, _, _, _, h, _ => by simp [yieldsNode] at h
  | .memFun I member, args, s, s', r, _, he => by
    simp only [eval] at he
    exact ⟨_, by simpa using (congrArg Prod.fst he).symm⟩
  | .memCall _ _ _, _, _, _, _, h, _ => by simp [yieldsNode] at h
  | .memObj _ _, _, _, _, _, h, _ => by simp [yieldsNode] at h
  | .phIndex I index, args, s, s', r, h, he => by
    simp only [eval, andThen_eq_ok, still_eq_ok] at he
    obtain ⟨a, s1, ⟨ha, _⟩, b, s2, ⟨hb, _⟩, i, s3, _, k, s4, _, hs, _⟩ := he
    obtain ⟨n, hn⟩ := getArg_node I args a (by simpa [yieldsNode] using h) ha
    subst hn
    simp [baseOf] at hb
    subst hb
    exact absurd hs (subscript_node _ _ _ _)
  | .phAssign I rhs, args, s, s', r, h, he => by
    simp only [eval, andThen_eq_ok, still_eq_ok] at he
    obtain ⟨a, s1, ⟨ha, _⟩, r0, s2, _, v, s3, _, hs⟩ := he
    obtain ⟨n, hn⟩ := getArg_node I args a (by simpa [yieldsNode] using h) ha
    subst hn
    simp [assignTo] at hs
  | .bind func params, args, s, s', r, h, he => by
    simp only [eval, andThen_eq_ok] at he
    obtain ⟨x, s3, hx, hk⟩ := he
    have hf : ∃ n, x.1 = .node n := by
      split at hx
      · simp only [andThen_eq_ok] at hx
        obtain ⟨f, s1, hf, rs, s2, _, hfr⟩ := hx
        obtain ⟨n, hn⟩ := eval_yieldsNode q funs func args _ _ f (by simpa [yieldsNode] using h) hf
        exact ⟨n, by simp at hfr; rw [← hfr.1]; exact hn⟩
      · simp only [andThen_eq_ok] at hx
        obtain ⟨rs, s1, _, f, s2, hf, hfr⟩ := hx
        obtain ⟨n, hn⟩ := eval_yieldsNode q funs func args _ _ f (by simpa [yieldsNode] using h) hf
        exact ⟨n, by simp at hfr; rw [← hfr.1]; exact hn⟩
    obtain ⟨n, hn⟩ := hf
    rw [hn] at hk
    simp only at hk
    split at hk <;> simp at hk
  | .unOp op rhs, args, s, s', r, h, he => by
    simp only [eval, andThen_eq_ok] at he
    obtain ⟨r0, s1, h0, hk⟩ := he
    obtain ⟨n, hn⟩ := eval_yieldsNode q funs rhs args _ _ r0 (by simpa [yieldsNode] using h) h0
    subst hn
    simp [Res.operand, unary, is_expression] at hk
    exact ⟨_, hk.1.symm⟩
  | .postOp op lhs, args, s, s', r, h, he => by
    simp only [eval, andThen_eq_ok] at he
    obtain ⟨r0, s1, h0, hk⟩ := he
    obtain ⟨n, hn⟩ := eval_yieldsNode q funs lhs args _ _ r0 (by simpa [yieldsNode] using h) h0
    subst hn
    simp [Res.operand, postfixOp, is_expression] at hk
    exact ⟨_, hk.1.symm⟩
  | .binOp op lhs rhs, args, s, s', r, h, he => by
    have h' : (yieldsNode lhs args || yieldsNode rhs args) = true := by simpa [yieldsNode] using h
    simp only [eval, h', if_true, andThen_eq_ok, still_eq_ok] at he
    obtain ⟨x, s2, _, hb, _⟩ := he
    exact built_not_lv _ _ hb

theorem getArg_plain (I : Nat) (args : List ArgRef) (r : Res)
    (h : isNodeArg I args = false) (hr : getArg I args = .ok r) : ∀ n, r ≠ .node n := by
  unfold isNodeArg at h
  unfold getArg at hr
  split at hr
  · simp at hr; subst hr; simp
  · rename_i n hn
    simp [hn] at h
  · simp at hr

theorem assignTo_plain (l : Res) (v : Val) (s s' : Store) (r : Res)
    (h : assignTo l v s = (.ok r, s')) : ∀ n, r ≠ .node n := by
  unfold assignTo at h
  repeat' split at h
  all_goals simp at h
  all_goals
    obtain ⟨h1, _⟩ := h
    subst h1
    simp

theorem compoundTo_plain (op : BinOp) (l : Res) (v : Val) (s s' : Store) (r : Res)
    (h : compoundTo op l v s = (.ok r, s')) : ∀ n, r ≠ .node n := by
  unfold compoundTo at h
  repeat' split at h
  all_goals simp at h
  all_goals
    obtain ⟨h1, _⟩ := h
    subst h1
    simp

theorem valueOp_plain (op : BinOp) (a b : Val) (s s' : Store) (r : Res)
    (h : valueOp op a b s = (.ok r, s')) : ∀ n, r ≠ .node n := by
  unfold valueOp at h
  split at h
  all_goals simp at h
  obtain ⟨h1, _⟩ := h
  subst h1
  simp

theorem baseOf_plain (s : Store) (a r : Res) (ha : ∀ n, a ≠ .node n)
    (h : baseOf s a = .ok r) : ∀ n, r ≠ .node n := by
  unfold baseOf at h
  repeat' split at h
  all_goals simp at h
  all_goals
    subst h
    first | (simp; done) | exact ha

theorem subscript_plain (base : Res) (k : Val) (s : Store) (r : Res)
    (h : subscript base k s = .ok r) : ∀ n, r ≠ .node n := by
  unfold subscript at h
  repeat' split at h
  all_goals simp at h
  all_goals
    subst h
    simp

theorem memberOf_plain (m : Nat) (obj : Res) (s : Store) (r : Res)
    (h : memberOf m obj s = .ok r) : ∀ n, r ≠ .node n := by
  unfold memberOf at h
  repeat' split at h
  all_goals simp at h
  all_goals
    subst h
    simp

theorem stepBy_ok (d : Int) (r : Res) (s s' : Store) (x : Val × LVal)
    (h : stepBy d r s = (.ok x, s')) : ∃ l, r = .lv l := by
  cases r with
  | lv l => exact ⟨l, rfl⟩
  | rv v => simp [stepBy] at h
  | node n => simp [stepBy] at h

theorem applyUn_plain (op : UnOp) (a : Res) (s s' : Store) (r : Res)
    (h : applyUn op a s = (.ok r, s')) : ∀ n, r ≠ .node n := by
  cases op
  case preInc =>
    simp only [applyUn, andThen_eq_ok] at h
    obtain ⟨x, s1, _, h2⟩ := h
    simp at h2
    rw [← h2.1]; simp
  case preDec =>
    simp only [applyUn, andThen_eq_ok] at h
    obtain ⟨x, s1, _, h2⟩ := h
    simp at h2
    rw [← h2.1]; simp
  all_goals
    unfold applyUn at h
    simp only at h
    repeat' split at h
    all_goals simp at h
    all_goals
      obtain ⟨h1, _⟩ := h
      subst h1
      simp

theorem applyPost_plain (op : PostOp) (a : Res) (s s' : Store) (r : Res)
    (h : applyPost op a s = (.ok r, s')) : ∀ n, r ≠ .node n := by
  cases op
  all_goals
    simp only [applyPost, andThen_eq_ok] at h
    obtain ⟨x, s1, _, h2⟩ := h
    simp at h2
    rw [← h2.1]; simp

theorem unary_plain (op : UnOp) (r : Res) (h : ∀ n, r ≠ .node n) : unary op r.operand = none := by
  cases r with
  | lv l => rfl
  | rv v => rfl
  | node n => exact absurd rfl (h n)

theorem postfixOp_plain (op : PostOp) (r : Res) (h : ∀ n, r ≠ .node n) :
    postfixOp op r.operand = none := by
  cases r with
  | lv l => rfl
  | rv v => rfl
  | node n => exact absurd rfl (h n)

theorem eval_plain (q : Sequencing) (funs : Funs) :
    ∀ (t : Node) (args : List ArgRef) (s s' : Store) (r : Res),
      yieldsNode t args = false → eval q funs t args s = (.ok r, s') → ∀ n, r ≠ .node n
  | .placeholder I, args, s, s', r, h, he => by
    simp only [eval, still_eq_ok] at he
    exact getArg_plain I args r (by simpa [yieldsNode] using h) he.1
  | .variable _, _, _, _, _, _, he => by
    simp [eval] at he
    rw [← he.1]; simp
  | .constant _, _, _, _, _, _, he => by
    simp [eval] at he
    rw [← he.1]; simp
  | .assign op rhs, args, s, s', r, _, he => by
    simp only [eval, andThen_eq_ok, still_eq_ok] at he
    obtain ⟨r0, s1, _, src, s1', _, l, s2, _, v, s2', _, ha⟩ := he
    exact assignTo_plain _ _ _ _ _ ha
  | .index _ _, _, _, _, _, _, he => by simp [eval] at he
  | .varAssign _ _, _, _, _, _, _, he => by
    simp only [eval, andThen_eq_ok, still_eq_ok] at he
    obtain ⟨r0, s1, _, v, s1', _, ha⟩ := he
    exact assignTo_plain _ _ _ _ _ ha
  | .varIndex _ _, _, _, _, _, _, he => by
    simp only [eval, andThen_eq_ok, still_eq_ok] at he
    obtain ⟨b, s0, _, i, s1, _, k, s2, _, hs, _⟩ := he
    exact subscript_plain _ _ _ _ hs
  | .constIndex _ _, _, _, _, _, _, he => by
    simp only [eval, andThen_eq_ok, still_eq_ok] at he
    obtain ⟨i, s1, _, k, s2, _, hs, _⟩ := he
    exact subscript_plain _ _ _ _ hs
  | .memFun _ _, _, _, _, _, h, _ => by simp [yieldsNode] at h
  | .memCall _ _ _, _, _, _, _, _, he => by
    simp only [eval, andThen_eq_ok, still_eq_ok] at he
    obtain ⟨o, s0, _, rs, s1, _, vs, s2, _, v, s3, _, hr⟩ := he
    simp at hr
    rw [← hr.1]; simp
  | .memObj _ _, _, _, _, _, _, he => by
    simp only [eval, andThen_eq_ok, still_eq_ok] at he
    obtain ⟨o, s0, _, hm, _⟩ := he
    exact memberOf_plain _ _ _ _ hm
  | .phIndex _ _, _, _, _, _, _, he => by
    simp only [eval, andThen_eq_ok, still_eq_ok] at he
    obtain ⟨a, s0, _, b, s1, _, i, s2, _, k, s3, _, hs, _⟩ := he
    exact subscript_plain _ _ _ _ hs
  | .phAssign _ _, _, _, _, _, _, he => by
    simp only [eval, andThen_eq_ok, still_eq_ok] at he
    obtain ⟨a, s0, _, r0, s1, _, v, s2, _, ha⟩ := he
    exact assignTo_plain _ _ _ _ _ ha
  | .bind _ _, _, _, _, _, _, he => by
    simp only [eval, andThen_eq_ok] at he
    obtain ⟨x, s3, _, hk⟩ := he
    split at hk
    · split at hk <;> simp at hk
    · simp only [andThen_eq_ok, still_eq_ok] at hk
      obtain ⟨f, s4, _, vs, s5, _, hm⟩ := hk
      split at hm
      · simp only [andThen_eq_ok, still_eq_ok] at hm
        obtain ⟨v, s6, _, hr⟩ := hm
        simp at hr
        rw [← hr.1]; simp
      · simp at hm
  | .unOp op rhs, args, s, s', r, h, he => by
    simp only [eval, andThen_eq_ok] at he
    obtain ⟨r0, s1, h0, hk⟩ := he
    have hp := eval_plain q funs rhs args _ _ r0 (by simpa [yieldsNode] using h) h0
    rw [unary_plain op r0 hp] at hk
    exact applyUn_plain _ _ _ _ _ hk
  | .postOp op lhs, args, s, s', r, h, he => by
    simp only [eval, andThen_eq_ok] at he
    obtain ⟨r0, s1, h0, hk⟩ := he
    have hp := eval_plain q funs lhs args _ _ r0 (by simpa [yieldsNode] using h) h0
    rw [postfixOp_plain op r0 hp] at hk
    exact applyPost_plain _ _ _ _ _ hk
  | .binOp op lhs rhs, args, s, s', r, h, he => by
    have h' : (yieldsNode lhs args || yieldsNode rhs args) = false := by simpa [yieldsNode] using h
    have hr : yieldsNode rhs args = false := (Bool.or_eq_false_iff.mp h').2
    simp only [eval, h'] at he
    simp only [Bool.false_eq_true, if_false] at he
    split at he
    · simp only [andThen_eq_ok, still_eq_ok] at he
      obtain ⟨l, s1, _, a, s2, _, hk⟩ := he
      split at hk
      · simp only [andThen_eq_ok, still_eq_ok] at hk
        obtain ⟨r1, s3, _, b, s4, _, hb⟩ := hk
        simp at hb
        rw [← hb.1]; simp
      · simp at hk
        rw [← hk.1]; simp
    · simp only [andThen_eq_ok, still_eq_ok] at he
      obtain ⟨l, s1, _, a, s2, _, hk⟩ := he
      split at hk
      · simp at hk
        rw [← hk.1]; simp
      · simp only [andThen_eq_ok, still_eq_ok] at hk
        obtain ⟨r1, s3, _, b, s4, _, hb⟩ := hk
        simp at hb
        rw [← hb.1]; simp
    · simp only [andThen_eq_ok] at he
      obtain ⟨l, s1, _, hk⟩ := he
      exact eval_plain q funs rhs args _ _ r hr hk
    · split at he
      · simp only [andThen_eq_ok, still_eq_ok] at he
        obtain ⟨r1, s1, _, v, s2, _, l, s3, _, hc⟩ := he
        exact compoundTo_plain _ _ _ _ _ _ hc
      · split at he
        · simp only [andThen_eq_ok, still_eq_ok] at he
          obtain ⟨l, s1, _, a, s2, _, r1, s3, _, b, s4, _, hv⟩ := he
          exact valueOp_plain _ _ _ _ _ _ hv
        · simp only [andThen_eq_ok, still_eq_ok] at he
          obtain ⟨r1, s1, _, b, s2, _, l, s3, _, a, s4, _, hv⟩ := he
          exact valueOp_plain _ _ _ _ _ _ hv

theorem materialize_length (args : List Operand) (s : Store) :
    (materialize args s).1.length = args.length := by
  induction args generalizing s with
  | nil => rfl
  | cons a as ih =>
    cases a <;> simp [materialize, ih]

theorem invoke_of_instantiates (q : Sequencing) (funs : Funs) (t : Node) (args : List Operand)
    (s : Store) (h : instantiates t args.length = true) :
    invoke q funs t args s = eval q funs t (materialize args s).1 (materialize args s).2 := by
  simp [invoke, h]

theorem instantiates_of_invoke (q : Sequencing) (funs : Funs) (t : Node) (args : List Operand)
    (s s' : Store) (r : Res) (h : invoke q funs t args s = (.ok r, s')) :
    instantiates t args.length = true := by
  by_contra hn
  simp [invoke, hn] at h

theorem truth_node (s : Store) (n : Node) : truth s (.node n) = .error .unmodelled := rfl

/-- An operand whose truth value can be taken is no expression object. -/
theorem plain_of_truth (q : Sequencing) (funs : Funs) (t : Node) (args : List ArgRef)
    (s s' : Store) (r : Res) (b : Bool)
    (he : eval q funs t args s = (.ok r, s')) (hb : truth s' r = .ok b) :
    yieldsNode t args = false := by
  cases h : yieldsNode t args with
  | false => rfl
  | true =>
    obtain ⟨n, hn⟩ := eval_yieldsNode q funs t args s s' r h he
    subst hn
    simp [truth_node] at hb

/-- C1 fails when the call of `R` yields an expression object: in
`(_1 || (++_2 , _1->*&A::get))(true, i)` with `i == 0` the left operand is
true, yet `||` is the operator function of the header, `R` is invoked (`i`
becomes 1), and the result is a tree, not `true`. -/
theorem C1_counterexample :
    unary .preInc (.node _2) = some (.unOp .preInc _2) ∧
    arrowStar _1 (.function 0) = some (.memFun 0 0) ∧
    binary .comma (.node (.unOp .preInc _2)) (.node (.memFun 0 0))
      = some (.binOp .comma (.unOp .preInc _2) (.memFun 0 0)) ∧
    binary .lor (.node _1) (.node (.binOp .comma (.unOp .preInc _2) (.memFun 0 0)))
      = some (.binOp .lor _1 (.binOp .comma (.unOp .preInc _2) (.memFun 0 0))) ∧
    invoke leftFirst noFuns _1 [.rvalue (.bool true), .lvalue ⟨0, []⟩] [some (.int 0)]
      = (.ok (.lv ⟨1, []⟩), [some (.int 0), some (.bool true)]) ∧
    truth [some (.int 0), some (.bool true)] (.lv ⟨1, []⟩) = .ok true ∧
    invoke leftFirst noFuns (.binOp .lor _1 (.binOp .comma (.unOp .preInc _2) (.memFun 0 0)))
        [.rvalue (.bool true), .lvalue ⟨0, []⟩] [some (.int 0)]
      = (.ok (.node (.binOp .lor (.variable ⟨1, []⟩)
            (.binOp .comma (.variable ⟨0, []⟩)
              (.memCall 0 0 [.variable ⟨1, []⟩, .variable ⟨0, []⟩])))),
          [some (.int 1), some (.bool true)]) ∧
    invoke leftFirst noFuns (.binOp .lor _1 (.binOp .comma (.unOp .preInc _2) (.memFun 0 0)))
        [.rvalue (.bool true), .lvalue ⟨0, []⟩] [some (.int 0)]
      ≠ (.ok (.rv (.bool true)), [some (.int 0), some (.bool true)]) := by
  refine ⟨rfl, rfl, rfl, rfl, rfl, rfl, rfl, ?_⟩
  intro h
  have h1 := congrArg Prod.snd h
  simp [invoke, instantiates, _1, _2, materialize, eval, yieldsNode, isNodeArg, leftOperandFirst,
    leftFirst, andThen, still, getArg, unary, Res.operand, is_expression, applyUn, stepBy, read,
    getPath, mkInt, inRange, INT_MIN, INT_MAX, write, setPath, built, binary, BinOp.base] at h1

/-- C1, amended: short-circuit OR.  For every right-hand sub-tree `R` with
which the call compiles and whose call does not yield an expression object,
and every argument list on which the left operand `L` evaluates to true,
invoking `L || R` returns true in exactly the store `L` left: `R` is not
invoked, whatever it would do. -/
theorem C1_or_short_circuit (q : Sequencing) (funs : Funs) (L R : Node) (args : List Operand)
    (s s' : Store) (l : Res)
    (hR : instantiates R args.length = true)
    (hRn : yieldsNode R (materialize args s).1 = false)
    (hL : invoke q funs L args s = (.ok l, s'))
    (hl : truth s' l = .ok true) :
    binary .lor (.node L) (.node R) = some (.binOp .lor L R) ∧
    invoke q funs (.binOp .lor L R) args s = (.ok (.rv (.bool true)), s') := by
  have hLi := instantiates_of_invoke q funs L args s s' l hL
  rw [invoke_of_instantiates q funs L args s hLi] at hL
  have hLn := plain_of_truth q funs L _ _ _ l true hL hl
  rw [invoke_of_instantiates q funs _ args s (by simp [instantiates, hLi, hR])]
  refine ⟨rfl, ?_⟩
  simp [eval, hLn, hRn, hL, andThen, still, hl]

/-- C1, the test case: `(_1 || ++_2)(true, i)` with `i == 0` returns true and
leaves `i == 0`. -/
theorem C1_or_short_circuit_witness :
    instantiates (.unOp .preInc _2) 2 = true ∧
    yieldsNode (.unOp .preInc _2)
      (materialize [.rvalue (.bool true), .lvalue ⟨0, []⟩] [some (.int 0)]).1 = false ∧
    invoke leftFirst noFuns _1 [.rvalue (.bool true), .lvalue ⟨0, []⟩] [some (.int 0)]
      = (.ok (.lv ⟨1, []⟩), [some (.int 0), some (.bool true)]) ∧
    truth [some (.int 0), some (.bool true)] (.lv ⟨1, []⟩) = .ok true ∧
    unary .preInc (.node _2) = some (.unOp .preInc _2) ∧
    binary .lor (.node _1) (.node (.unOp .preInc _2)) = some (.binOp .lor _1 (.unOp .preInc _2)) ∧
    invoke leftFirst noFuns (.binOp .lor _1 (.unOp .preInc _2))
        [.rvalue (.bool true), .lvalue ⟨0, []⟩] [some (.int 0)]
      = (.ok (.rv (.bool true)), [some (.int 0), some (.bool true)]) :=
  ⟨rfl, rfl, rfl, rfl, rfl, rfl,
    (C1_or_short_circuit leftFirst noFuns _1 (.unOp .preInc _2)
      [.rvalue (.bool true), .lvalue ⟨0, []⟩] [some (.int 0)] _ _ rfl rfl rfl rfl).2⟩

/-- C2 fails when the call of `R` yields an expression object: in
`(_1 && (++_2 , _1->*&A::get))(false, i)` with `i == 0` the left operand is
false, yet `&&` is the operator function of the header, `R` is invoked (`i`
becomes 1), and the result is a tree, not `false`. -/
theorem C2_counterexample :
    binary .land (.node _1) (.node (.binOp .comma (.unOp .preInc _2) (.memFun 0 0)))
      = some (.binOp .land _1 (.binOp .comma (.unOp .preInc _2) (.memFun 0 0))) ∧
    invoke leftFirst noFuns _1 [.rvalue (.bool false), .lvalue ⟨0, []⟩] [some (.int 0)]
      = (.ok (.lv ⟨1, []⟩), [some (.int 0), some (.bool false)]) ∧
    truth [some (.int 0), some (.bool false)] (.lv ⟨1, []⟩) = .ok false ∧
    invoke leftFirst noFuns (.binOp .land _1 (.binOp .comma (.unOp .preInc _2) (.memFun 0 0)))
        [.rvalue (.bool false), .lvalue ⟨0, []⟩] [some (.int 0)]
      = (.ok (.node (.binOp .land (.variable ⟨1, []⟩)
            (.binOp .comma (.variable ⟨0, []⟩)
              (.memCall 0 0 [.variable ⟨1, []⟩, .variable ⟨0, []⟩])))),
          [some (.int 1), some (.bool false)]) ∧
    invoke leftFirst noFuns (.binOp .land _1 (.binOp .comma (.unOp .preInc _2) (.memFun 0 0)))
        [.rvalue (.bool false), .lvalue ⟨0, []⟩] [some (.int 0)]
      ≠ (.ok (.rv (.bool false)), [some (.int 0), some (.bool false)]) := by
  refine ⟨rfl, rfl, rfl, rfl, ?_⟩
  intro h
  have h1 := congrArg Prod.snd h
  simp [invoke, instantiates, _1, _2, materialize, eval, yieldsNode, isNodeArg, leftOperandFirst,
    leftFirst, andThen, still, getArg, unary, Res.operand, is_expression, applyUn, stepBy, read,
    getPath, mkInt, inRange, INT_MIN, INT_MAX, write, setPath, built, binary, BinOp.base] at h1

/-- C2, amended: short-circuit AND, for every right-hand sub-tree `R` whose
call does not yield an expression object.  When `L` evaluates to false,
`L && R` is false in exactly the store `L` left, whatever `R` is; when `L`
evaluates to true, `R` is invoked on the store `L` left and its truth value is
the result.  Nested: in `_1 || (_2 && ++_3)` the increment is executed exactly
when `_1` is false and `_2` is true. -/
theorem C2_and_short_circuit (q : Sequencing) (funs : Funs) (L R : Node) (args : List Operand)
    (s s' : Store) (l : Res)
    (hR : instantiates R args.length = true)
    (hRn : yieldsNode R (materialize args s).1 = false)
    (hL : invoke q funs L args s = (.ok l, s')) :
    binary .land (.node L) (.node R) = some (.binOp .land L R) ∧
    (truth s' l = .ok false →
      invoke q funs (.binOp .land L R) args s = (.ok (.rv (.bool false)), s')) ∧
    (truth s' l = .ok true →
      invoke q funs (.binOp .land L R) args s =
        andThen (eval q funs R (materialize args s).1 s') fun r s2 =>
          andThen (still (truth s2 r) s2) fun b s2 => (.ok (.rv (.bool b)), s2)) ∧
    unary .preInc (.node _3) = some (.unOp .preInc _3) ∧
    binary .land (.node _2) (.node (.unOp .preInc _3))
      = some (.binOp .land _2 (.unOp .preInc _3)) ∧
    binary .lor (.node _1) (.node (.binOp .land _2 (.unOp .preInc _3)))
      = some (.binOp .lor _1 (.binOp .land _2 (.unOp .preInc _3))) ∧
    (∀ (a b : Bool) (i : Int),
      invoke q funs (.binOp .lor _1 (.binOp .land _2 (.unOp .preInc _3)))
          [.rvalue (.bool a), .rvalue (.bool b), .lvalue ⟨0, []⟩] [some (.int i)] =
        if (!a && b) = true then
          andThen (applyUn .preInc (.lv ⟨0, []⟩) [some (.int i), some (.bool a), some (.bool b)])
            fun r s2 => andThen (still (truth s2 r) s2) fun c s2 => (.ok (.rv (.bool c)), s2)
        else (.ok (.rv (.bool a)), [some (.int i), some (.bool a), some (.bool b)])) := by
  have hLi := instantiates_of_invoke q funs L args s s' l hL
  rw [invoke_of_instantiates q funs L args s hLi] at hL
  rw [invoke_of_instantiates q funs _ args s (by simp [instantiates, hLi, hR])]
  refine ⟨rfl, ?_, ?_, rfl, rfl, rfl, ?_⟩
  · intro hl
    have hLn := plain_of_truth q funs L _ _ _ l false hL hl
    simp [eval, hLn, hRn, hL, andThen, still, hl]
  · intro hl
    have hLn := plain_of_truth q funs L _ _ _ l true hL hl
    simp [eval, hLn, hRn, hL, andThen, still, hl]
  · intro a b i
    have h1 : truth ([some (.int i), some (.bool a), some (.bool b)]) (.lv ⟨1, []⟩)
        = .ok a := rfl
    have h2 : truth ([some (.int i), some (.bool a), some (.bool b)]) (.lv ⟨2, []⟩)
        = .ok b := rfl
    have h3 : ∀ (c : Bool) (t : Store), truth t (.rv (.bool c)) = .ok c := fun _ _ => rfl
    cases a <;> cases b <;>
      simp [invoke, instantiates, _1, _2, _3, materialize, eval, yieldsNode, isNodeArg, andThen,
        still, getArg, h1, h2, h3, unary, Res.operand, is_expression]
    generalize applyUn .preInc (.lv ⟨0, []⟩) [some (.int i), some (.bool false), some (.bool true)]
      = x
    rcases x with ⟨r, t⟩
    cases r with
    | error e => rfl
    | ok r =>
      simp only [andThen, still]
      generalize truth t r = y
      cases y <;> simp [andThen, h3]

/-- C2 at `(_1 && ++_2)(false, i)` with `i == 0`: the result is false and `i`
stays 0. -/
theorem C2_and_short_circuit_witness :
    instantiates (.unOp .preInc _2) 2 = true ∧
    yieldsNode (.unOp .preInc _2)
      (materialize [.rvalue (.bool false), .lvalue ⟨0, []⟩] [some (.int 0)]).1 = false ∧
    invoke leftFirst noFuns _1 [.rvalue (.bool false), .lvalue ⟨0, []⟩] [some (.int 0)]
      = (.ok (.lv ⟨1, []⟩), [some (.int 0), some (.bool false)]) ∧
    truth [some (.int 0), some (.bool false)] (.lv ⟨1, []⟩) = .ok false ∧
    invoke leftFirst noFuns (.binOp .land _1 (.unOp .preInc _2))
        [.rvalue (.bool false), .lvalue ⟨0, []⟩] [some (.int 0)]
      = (.ok (.rv (.bool false)), [some (.int 0), some (.bool false)]) ∧
    invoke leftFirst noFuns (.binOp .lor _1 (.binOp .land _2 (.unOp .preInc _3)))
        [.rvalue (.bool false), .rvalue (.bool true), .lvalue ⟨0, []⟩] [some (.int 0)]
      = (.ok (.rv (.bool true)), [some (.int 1), some (.bool false), some (.bool true)]) ∧
    invoke leftFirst noFuns (.binOp .lor _1 (.binOp .land _2 (.unOp .preInc _3)))
        [.rvalue (.bool true), .rvalue (.bool true), .lvalue ⟨0, []⟩] [some (.int 0)]
      = (.ok (.rv (.bool true)), [some (.int 0), some (.bool true), some (.bool true)]) :=
  ⟨rfl, rfl, rfl, rfl,
    (C2_and_short_circuit leftFirst noFuns _1 (.unOp .preInc _2)
      [.rvalue (.bool false), .lvalue ⟨0, []⟩] [some (.int 0)] _ _ rfl rfl rfl).2.1 rfl,
    rfl, rfl⟩

theorem getElem?_append_add {α : Type} (s t : List α) (k : Nat) :
    (s ++ t)[s.length + k]? = t[k]? := by
  rw [List.getElem?_append_right (by omega)]
  simp

theorem getElem?_append_length {α : Type} (s t : List α) :
    (s ++ t)[s.length]? = t[0]? := by
  simpa using getElem?_append_add s t 0

theorem endFullExpression_append (s : Store) (t : Store) :
    endFullExpression s.length (s ++ t) = s ++ List.replicate t.length none := by
  simp [endFullExpression]

/-- C3: the member-function combinator on a literal parameter.  The statement
`auto lambda = (_1->*&A::get)(_2, lit);` runs `expression::operator()`, which
hands its parameters on as lvalues; the literal is therefore coerced to a
`variable` on the temporary that holds it, and that temporary dies when the
statement ends.  Invoking `lambda(obj, c)` afterwards reads dead storage: the
call is undefined, it does not return `obj.get(c, lit)`.  Had the literal been
coerced to a `constant`, the call would return `obj.get(c, lit)`. -/
theorem C3_mem_fun_literal_dangles (q : Sequencing) (funs : Funs) (get : Nat) (obj c lit : Val)
    (s : Store) :
    arrowStar _1 (.function get) = some (.memFun 0 get) ∧
    invoke q funs (.memFun 0 get) [.node _2, .rvalue lit] s
      = (.ok (.node (.memCall 0 get [_2, .variable ⟨s.length, []⟩])), s ++ [some lit]) ∧
    invokeValue q funs (.memCall 0 get [_2, .variable ⟨s.length, []⟩]) [.rvalue obj, .rvalue c]
        (endFullExpression s.length (s ++ [some lit]))
      = (.error .undefined, s ++ [none, none, none]) ∧
    invokeValue q funs (.memCall 0 get [_2, .constant lit]) [.rvalue obj, .rvalue c]
        (endFullExpression s.length (s ++ [some lit]))
      = (callFn funs get [obj, c, lit], s ++ [none, none, none]) := by
  have h1 : (s ++ [none, some obj, some c] : Store)[s.length]? = some none := by
    rw [getElem?_append_length]; rfl
  have h2 : (s ++ [none, some obj, some c] : Store)[s.length + 1]? = some (some obj) := by
    rw [getElem?_append_add]; rfl
  have h3 : (s ++ [none, some obj, some c] : Store)[s.length + 1 + 1]? = some (some c) := by
    rw [Nat.add_assoc, getElem?_append_add]; rfl
  have h4 : List.take (s.length + 1) (s ++ [none, some obj, some c] : Store) = s ++ [none] := by
    rw [List.take_append]; rfl
  refine ⟨rfl, ?_, ?_, ?_⟩
  · simp [invoke, instantiates, materialize, eval, ArgRef.operand, expressify, _2]
  · rw [endFullExpression_append]
    cases hq : q.argumentsLeftFirst <;>
    simp [invokeValue, invoke, instantiates, instantiatesAll, _2, materialize, eval, evalPack,
      andThen, still, getArg, loadAll, load, read, getPath, h1, h2, h3, h4, hq,
      endFullExpression]
  · rw [endFullExpression_append]
    cases hq : q.argumentsLeftFirst <;> cases hc : callFn funs get [obj, c, lit] <;>
    simp [invokeValue, invoke, instantiates, instantiatesAll, _2, materialize, eval, evalPack,
      andThen, still, getArg, loadAll, load, read, getPath, h1, h2, h3, h4, hq, hc,
      endFullExpression]

/-- C4: the three-way rule of `expressify`.  (1) A node is returned as it is.
(2) An lvalue becomes a `variable` on the very storage: invoked on any
arguments it yields that lvalue, so reading it gives what the storage holds at
invocation time, and assigning through it is the built-in assignment to the
caller's object.  (3) A temporary becomes a `constant` that holds the value:
invoked on any arguments in any store it yields that value. -/
theorem C4_expressify_three_way (q : Sequencing) (funs : Funs) :
    (∀ n : Node, is_expression (.node n) = true ∧ expressify (.node n) = n) ∧
    (∀ l : LVal, is_expression (.lvalue l) = false ∧ expressify (.lvalue l) = .variable l ∧
      (∀ args s, invoke q funs (expressify (.lvalue l)) args s
        = (.ok (.lv l), (materialize args s).2)) ∧
      (∀ args s, (invokeValue q funs (expressify (.lvalue l)) args s).1
        = read (materialize args s).2 l) ∧
      (∀ w args s, assignOp (expressify (.lvalue l)) (.rvalue w)
          = some (.varAssign l (.constant w)) ∧
        invoke q funs (.varAssign l (.constant w)) args s
          = assignTo (.lv l) w (materialize args s).2)) ∧
    (∀ v : Val, is_expression (.rvalue v) = false ∧ expressify (.rvalue v) = .constant v ∧
      (∀ args s, invoke q funs (expressify (.rvalue v)) args s
        = (.ok (.rv v), (materialize args s).2))) ∧
    invoke q funs (.varAssign ⟨0, []⟩ (.constant (.int 7))) [] [some (.int 1)]
      = (.ok (.lv ⟨0, []⟩), [some (.int 7)]) := by
  refine ⟨fun n => ⟨rfl, rfl⟩, fun l => ⟨rfl, rfl, ?_, ?_, ?_⟩, fun v => ⟨rfl, rfl, ?_⟩, ?_⟩
  · intro args s
    simp [invoke, expressify, instantiates, eval]
  · intro args s
    simp [invokeValue, invoke, expressify, instantiates, eval, load]
  · intro w args s
    refine ⟨rfl, ?_⟩
    simp [invoke, instantiates, eval, andThen, still, load]
  · intro args s
    simp [invoke, expressify, instantiates, eval]
  · simp [invoke, instantiates, eval, andThen, still, load, materialize, assignTo, read, getPath,
      convertTo, write, setPath]

theorem andThen_assoc {α β γ : Type} (x : Out α) (f : α → Store → Out β)
    (g : β → Store → Out γ) :
    andThen (andThen x f) g = andThen x fun a s => andThen (f a s) g := by
  rcases x with ⟨r, s⟩
  cases r <;> rfl

theorem andThen_pure {α β : Type} (a : α) (s : Store) (k : α → Store → Out β) :
    andThen ((.ok a, s) : Out α) k = k a s := rfl

theorem andThen_still_ok {α β : Type} (a : α) (s : Store) (k : α → Store → Out β) :
    andThen (still (.ok a) s) k = k a s := rfl

theorem andThen_ok {α : Type} (x : Out α) : (andThen x fun a s => (.ok a, s)) = x := by
  rcases x with ⟨r, s⟩
  cases r <;> rfl

theorem andThen_still_map {α β γ : Type} (x : Except Err α) (f : α → β) (s : Store)
    (k : β → Store → Out γ) :
    andThen (still (x.map f) s) k = andThen (still x s) fun a s1 => k (f a) s1 := by
  cases x <;> rfl

/-- C5 fails for compound assignment: in `(++_1 += _1 * 10)(i)` with `i == 1`
the right operand is invoked first (it yields 10), then the left one (it makes
`i` 2), and `i` ends as 12; the left-to-right sequence would give 22. -/
theorem C5_counterexample :
    unary .preInc (.node _1) = some (.unOp .preInc _1) ∧
    binary .mul (.node _1) (.rvalue (.int 10)) = some (.binOp .mul _1 (.constant (.int 10))) ∧
    binary .addAssign (.node (.unOp .preInc _1)) (.node (.binOp .mul _1 (.constant (.int 10))))
      = some (.binOp .addAssign (.unOp .preInc _1) (.binOp .mul _1 (.constant (.int 10)))) ∧
    invoke leftFirst noFuns
        (.binOp .addAssign (.unOp .preInc _1) (.binOp .mul _1 (.constant (.int 10))))
        [.lvalue ⟨0, []⟩] [some (.int 1)]
      = (.ok (.lv ⟨0, []⟩), [some (.int 12)]) ∧
    leftToRight leftFirst noFuns .addAssign (.unOp .preInc _1)
        (.binOp .mul _1 (.constant (.int 10))) [.obj ⟨0, []⟩] [some (.int 1)]
      = (.ok (.lv ⟨0, []⟩), [some (.int 22)]) ∧
    invoke leftFirst noFuns
        (.binOp .addAssign (.unOp .preInc _1) (.binOp .mul _1 (.constant (.int 10))))
        [.lvalue ⟨0, []⟩] [some (.int 1)]
      ≠ leftToRight leftFirst noFuns .addAssign (.unOp .preInc _1)
        (.binOp .mul _1 (.constant (.int 10))) [.obj ⟨0, []⟩] [some (.int 1)] :=
  ⟨rfl, rfl, rfl, rfl, rfl, by
    intro h
    have h1 : invoke leftFirst noFuns
        (.binOp .addAssign (.unOp .preInc _1) (.binOp .mul _1 (.constant (.int 10))))
        [.lvalue ⟨0, []⟩] [some (.int 1)] = (.ok (.lv ⟨0, []⟩), [some (.int 12)]) := rfl
    have h2 : leftToRight leftFirst noFuns .addAssign (.unOp .preInc _1)
        (.binOp .mul _1 (.constant (.int 10))) [.obj ⟨0, []⟩] [some (.int 1)]
      = (.ok (.lv ⟨0, []⟩), [some (.int 22)]) := rfl
    rw [h1, h2] at h
    simp at h⟩

/-- C5, amended: a binary combinator invokes its operands in the order C++
gives the operator of its body.  When neither operand call yields an
expression object the operator is the built-in one: `&&` and `||` invoke `L`
first and `R` only when needed, on the store `L` left; the comma and the shifts
run left to right; a compound assignment invokes `R` first and takes its
value, then `L` on the store `R` left, then assigns; for the other arithmetic,
bitwise and relational operators the result is that of the left-to-right or of
the right-to-left sequence, as the implementation chooses; the value of an
operand is taken right after the operand has been invoked.  When an operand
call yields an expression object the operator is the combinator itself: both
operands are invoked, in the order of the built-in operator, and the result is
the tree built from their results.  So `(_1 << _1++)(i)` with `i == 1` is 2,
and `(_1 - _1++)(i)` is 0 left to right and 1 right to left. -/
theorem C5_operand_order (q : Sequencing) (funs : Funs) (op : BinOp) (L R : Node)
    (args : List ArgRef) (s : Store) :
    binary op (.node L) (.node R) = some (.binOp op L R) ∧
    eval q funs (.binOp op L R) args s =
      (if (yieldsNode L args || yieldsNode R args) = true then
        match op.base with
        | some _ => buildRightToLeft q funs op L R args s
        | none =>
          if op = .land ∨ op = .lor ∨ op = .comma ∨ op = .shl ∨ op = .shr ∨
              q.operandsLeftFirst = true then
            buildLeftToRight q funs op L R args s
          else buildRightToLeft q funs op L R args s
      else
        match op with
        | .land => shortCircuit q funs false L R args s
        | .lor => shortCircuit q funs true L R args s
        | op =>
          match op.base with
          | some _ => rightToLeft q funs op L R args s
          | none =>
            if op = .comma ∨ op = .shl ∨ op = .shr ∨ q.operandsLeftFirst = true then
              leftToRight q funs op L R args s
            else rightToLeft q funs op L R args s) ∧
    invoke q funs (.binOp .shl _1 (.postOp .postInc _1)) [.lvalue ⟨0, []⟩] [some (.int 1)]
      = (.ok (.rv (.int 2)), [some (.int 2)]) ∧
    invoke q funs (.binOp .sub _1 (.postOp .postInc _1)) [.lvalue ⟨0, []⟩] [some (.int 1)]
      = (.ok (.rv (.int (if q.operandsLeftFirst = true then 0 else 1))), [some (.int 2)]) := by
  refine ⟨rfl, ?_, ?_, ?_⟩
  · cases hn : (yieldsNode L args || yieldsNode R args)
    · cases op
      case land =>
        simp only [eval, hn, shortCircuit, Bool.false_eq_true, ↓reduceIte]
        congr 1
        funext l s1
        generalize truth s1 l = t
        rcases t with e | a
        · rfl
        · cases a <;> simp [andThen, still]
      case lor =>
        simp only [eval, hn, shortCircuit, Bool.false_eq_true, ↓reduceIte]
      case comma =>
        simp [eval, hn, leftToRight, taken, applyOp, BinOp.base, still, andThen_pure, andThen_ok]
      all_goals
        simp [eval, hn, leftToRight, rightToLeft, taken, applyOp, BinOp.base, leftOperandFirst,
          andThen_still_map, andThen_still_ok]
    · cases op <;> cases hq : q.operandsLeftFirst <;>
        simp [eval, hn, buildLeftToRight, buildRightToLeft, BinOp.base, leftOperandFirst,
          andThen_assoc, andThen_pure, hq]
  · rcases q with ⟨a, b⟩
    cases a <;> rfl
  · rcases q with ⟨a, b⟩
    cases a <;> rfl

theorem noArity_andThen {α β : Type} (x : Out α) (k : α → Store → Out β)
    (hx : NoArity x) (hk : ∀ a s, NoArity (k a s)) : NoArity (andThen x k) := by
  rcases x with ⟨r, s⟩
  cases r with
  | error e => simpa [andThen, NoArity] using hx
  | ok a => simpa [andThen] using hk a s

theorem read_ne_arity (s : Store) (l : LVal) : read s l ≠ .error .arity := by
  unfold read
  repeat' split
  all_goals simp

theorem write_ne_arity (s : Store) (l : LVal) (w : Val) : write s l w ≠ .error .arity := by
  unfold write
  repeat' split
  all_goals simp

theorem load_ne_arity (s : Store) (r : Res) : load s r ≠ .error .arity := by
  cases r <;> simp [load, read_ne_arity]

theorem rval_ne_arity (s : Store) (r : Res) : rval s r ≠ .error .arity := by
  cases r with
  | rv v => simp [rval]
  | node n => simp [rval]
  | lv l =>
    have := read_ne_arity s l
    simp only [rval]
    split <;> simp_all

theorem loadAll_ne_arity (s : Store) (rs : List Res) : loadAll s rs ≠ .error .arity := by
  induction rs with
  | nil => simp [loadAll]
  | cons r rs ih =>
    have := load_ne_arity s r
    unfold loadAll
    repeat' split
    all_goals simp_all

theorem toBool_ne_arity (v : Val) : toBool v ≠ .error .arity := by
  cases v <;> simp [toBool]

theorem truth_ne_arity (s : Store) (r : Res) : truth s r ≠ .error .arity := by
  have := rval_ne_arity s r
  unfold truth
  split
  · exact toBool_ne_arity _
  · simp_all

theorem convertTo_ne_arity (a b : Val) : convertTo a b ≠ .error .arity := by
  unfold convertTo
  repeat' split
  all_goals simp

theorem mkInt_ne_arity (n : Int) : mkInt n ≠ .error .arity := by
  unfold mkInt
  split <;> simp

theorem ptrAdd_ne_arity (l : Nat) (p : List Nat) (k : Int) : ptrAdd l p k ≠ .error .arity := by
  unfold ptrAdd
  repeat' split
  all_goals simp

theorem intOp_ne_arity (op : BinOp) (a b : Int) : intOp op a b ≠ .error .arity := by
  cases op <;> simp [intOp, mkInt_ne_arity] <;> repeat' split
  all_goals simp [mkInt_ne_arity]

theorem applyBin_ne_arity (op : BinOp) (a b : Val) : applyBin op a b ≠ .error .arity := by
  unfold applyBin
  repeat' split
  all_goals simp [ptrAdd_ne_arity, intOp_ne_arity]

theorem assignTo_noArity (l : Res) (v : Val) (s : Store) : NoArity (assignTo l v s) := by
  have h1 := fun l => read_ne_arity s l
  have h2 := fun a b => convertTo_ne_arity a b
  have h3 := fun l w => write_ne_arity s l w
  unfold assignTo NoArity
  repeat' split
  all_goals first | (simp; done) | (simp; intro he; subst he; simp_all)

theorem compoundTo_noArity (op : BinOp) (l : Res) (v : Val) (s : Store) :
    NoArity (compoundTo op l v s) := by
  have h1 := fun l => read_ne_arity s l
  have h2 := fun a b => convertTo_ne_arity a b
  have h3 := fun l w => write_ne_arity s l w
  have h4 := fun a b => applyBin_ne_arity op a b
  unfold compoundTo NoArity
  repeat' split
  all_goals first | (simp; done) | (simp; intro he; subst he; simp_all)

theorem valueOp_noArity (op : BinOp) (a b : Val) (s : Store) : NoArity (valueOp op a b s) := by
  have h4 := applyBin_ne_arity op a b
  unfold valueOp NoArity
  split
  · simp
  · simp
    intro he
    subst he
    simp_all

theorem baseOf_ne_arity (s : Store) (r : Res) : baseOf s r ≠ .error .arity := by
  have h1 := fun l => read_ne_arity s l
  unfold baseOf
  repeat' split
  all_goals first | (simp; done) | (simp; intro he; subst he; simp_all)

theorem source_ne_arity (s : Store) (r : Res) : source s r ≠ .error .arity := by
  have h1 := fun l => read_ne_arity s l
  unfold source
  repeat' split
  all_goals first | (simp; done) | (simp; intro he; subst he; simp_all)

theorem built_ne_arity (o : Option Node) : built o ≠ .error .arity := by
  cases o <;> simp [built]

theorem stepBy_noArity (d : Int) (r : Res) (s : Store) : NoArity (stepBy d r s) := by
  have h1 := fun l => read_ne_arity s l
  have h2 := fun n => mkInt_ne_arity n
  have h3 := fun l w => write_ne_arity s l w
  have h4 := fun l p k => ptrAdd_ne_arity l p k
  unfold stepBy NoArity
  repeat' split
  all_goals first | (simp; done) | (simp; intro he; subst he; simp_all)

theorem applyUn_noArity (op : UnOp) (r : Res) (s : Store) : NoArity (applyUn op r s) := by
  have h1 := fun r => rval_ne_arity s r
  have h2 := fun n => mkInt_ne_arity n
  have h3 := fun r => truth_ne_arity s r
  cases op
  case preInc => exact noArity_andThen _ _ (stepBy_noArity _ _ _) (fun _ _ => by simp [NoArity])
  case preDec => exact noArity_andThen _ _ (stepBy_noArity _ _ _) (fun _ _ => by simp [NoArity])
  all_goals
    unfold applyUn NoArity
    simp only
    repeat' split
    all_goals first | (simp; done) | (simp; intro he; subst he; simp_all)

theorem applyPost_noArity (op : PostOp) (r : Res) (s : Store) : NoArity (applyPost op r s) := by
  cases op <;>
    exact noArity_andThen _ _ (stepBy_noArity _ _ _) (fun _ _ => by simp [NoArity])

theorem subscript_ne_arity (base : Res) (i : Val) (s : Store) :
    subscript base i s ≠ .error .arity := by
  have h1 := fun l => read_ne_arity s l
  have h4 := fun l p k => ptrAdd_ne_arity l p k
  unfold subscript
  repeat' split
  all_goals first | (simp; done) | (simp; intro he; subst he; simp_all)

theorem memberOf_ne_arity (m : Nat) (obj : Res) (s : Store) :
    memberOf m obj s ≠ .error .arity := by
  have h1 := fun l => read_ne_arity s l
  unfold memberOf
  repeat' split
  all_goals first | (simp; done) | (simp; intro he; subst he; simp_all)

theorem callFn_ne_arity (funs : Funs) (f : Nat) (vs : List Val) :
    callFn funs f vs ≠ .error .arity := by
  unfold callFn
  split <;> simp

theorem getArg_ok (I : Nat) (args : List ArgRef) (h : I < args.length) :
    ∃ r, getArg I args = .ok r := by
  unfold getArg
  have : args[I]? = some args[I] := List.getElem?_eq_getElem h
  rw [this]
  split <;> simp_all

theorem noArity_still {α : Type} (x : Except Err α) (s : Store) (h : x ≠ .error .arity) :
    NoArity (still x s) := h

theorem noArity_ok {α : Type} (a : α) (s : Store) : NoArity ((.ok a, s) : Out α) := by
  simp [NoArity]

theorem noArity_andThen_of {α β : Type} (x : Out α) (k : α → Store → Out β)
    (hx : NoArity x) (hk : ∀ a s, x = (.ok a, s) → NoArity (k a s)) : NoArity (andThen x k) := by
  rcases x with ⟨r, s⟩
  cases r with
  | error e => simpa [andThen, NoArity] using hx
  | ok a => simpa [andThen] using hk a s rfl

mutual

theorem eval_noArity (q : Sequencing) (funs : Funs) :
    ∀ (t : Node) (args : List ArgRef) (s : Store),
      instantiates t args.length = true → plainCallees t args = true →
      NoArity (eval q funs t args s)
  | .placeholder I, args, s, h, _ => by
    simp [instantiates] at h
    rcases getArg_ok I args h with ⟨r, hr⟩
    simp [eval, still, NoArity, hr]
  | .variable _, _, _, _, _ => by simp [eval, NoArity]
  | .constant _, _, _, _, _ => by simp [eval, NoArity]
  | .assign op rhs, args, s, h, hp => by
    simp [instantiates] at h
    simp [plainCallees] at hp
    simp only [eval]
    exact noArity_andThen _ _ (eval_noArity q funs rhs args s h.2 hp.2) fun r s1 =>
      noArity_andThen _ _ (noArity_still _ _ (source_ne_arity _ _)) fun src s1 =>
        noArity_andThen _ _ (eval_noArity q funs op args s1 h.1 hp.1) fun l s2 =>
          noArity_andThen _ _ (noArity_still _ _ (load_ne_arity _ _)) fun v s2 =>
            assignTo_noArity _ _ _
  | .index _ _, _, _, _, _ => by simp [eval, NoArity]
  | .varAssign var rhs, args, s, h, hp => by
    simp [instantiates] at h
    simp [plainCallees] at hp
    simp only [eval]
    exact noArity_andThen _ _ (eval_noArity q funs rhs args s h hp) fun r s1 =>
      noArity_andThen _ _ (noArity_still _ _ (load_ne_arity _ _)) fun v s1 =>
        assignTo_noArity _ _ _
  | .varIndex var index, args, s, h, hp => by
    simp [instantiates] at h
    simp [plainCallees] at hp
    simp only [eval]
    exact noArity_andThen _ _ (noArity_still _ _ (baseOf_ne_arity _ _)) fun b s0 =>
      noArity_andThen _ _ (eval_noArity q funs index args s0 h hp) fun r s1 =>
        noArity_andThen _ _ (noArity_still _ _ (rval_ne_arity _ _)) fun v s1 =>
          noArity_still _ _ (subscript_ne_arity _ _ _)
  | .constIndex val index, args, s, h, hp => by
    simp [instantiates] at h
    simp [plainCallees] at hp
    simp only [eval]
    exact noArity_andThen _ _ (eval_noArity q funs index args s h hp) fun r s1 =>
      noArity_andThen _ _ (noArity_still _ _ (rval_ne_arity _ _)) fun v s1 =>
        noArity_still _ _ (subscript_ne_arity _ _ _)
  | .memFun _ _, _, _, _, _ => by simp [eval, NoArity]
  | .memCall I member params, args, s, h, hp => by
    simp [instantiates] at h
    simp [plainCallees] at hp
    rcases getArg_ok I args h.1 with ⟨r, hr⟩
    simp only [eval]
    exact noArity_andThen _ _ (noArity_still _ _ (by simp [hr])) fun obj s =>
      noArity_andThen _ _ (evalPack_noArity q funs params args s h.2 hp) fun rs s1 =>
        noArity_andThen _ _ (noArity_still _ _ (loadAll_ne_arity _ _)) fun vs s1 =>
          noArity_andThen _ _ (noArity_still _ _ (callFn_ne_arity _ _ _)) fun v s1 =>
            noArity_ok _ _
  | .memObj I member, args, s, h, _ => by
    simp [instantiates] at h
    rcases getArg_ok I args h with ⟨r, hr⟩
    simp only [eval]
    exact noArity_andThen _ _ (noArity_still _ _ (by simp [hr])) fun obj s =>
      noArity_still _ _ (memberOf_ne_arity _ _ _)
  | .phIndex I index, args, s, h, hp => by
    simp [instantiates] at h
    simp [plainCallees] at hp
    rcases getArg_ok I args h.1 with ⟨r, hr⟩
    simp only [eval]
    exact noArity_andThen _ _ (noArity_still _ _ (by simp [hr])) fun a s =>
      noArity_andThen _ _ (noArity_still _ _ (baseOf_ne_arity _ _)) fun base s =>
        noArity_andThen _ _ (eval_noArity q funs index args s h.2 hp) fun r s1 =>
          noArity_andThen _ _ (noArity_still _ _ (rval_ne_arity _ _)) fun v s1 =>
            noArity_still _ _ (subscript_ne_arity _ _ _)
  | .phAssign I rhs, args, s, h, hp => by
    simp [instantiates] at h
    simp [plainCallees] at hp
    rcases getArg_ok I args h.1 with ⟨r, hr⟩
    simp only [eval]
    exact noArity_andThen _ _ (noArity_still _ _ (by simp [hr])) fun target s =>
      noArity_andThen _ _ (eval_noArity q funs rhs args s h.2 hp) fun r s1 =>
        noArity_andThen _ _ (noArity_still _ _ (load_ne_arity _ _)) fun v s1 =>
          assignTo_noArity _ _ _
  | .bind func params, args, s, h, hp => by
    simp [instantiates] at h
    simp [plainCallees] at hp
    obtain ⟨⟨hy, hpf⟩, hpp⟩ := hp
    simp only [eval]
    refine noArity_andThen_of _ _ ?_ fun x s3 hx => ?_
    · split
      · exact noArity_andThen _ _ (eval_noArity q funs func args s h.1 hpf) fun f s1 =>
          noArity_andThen _ _ (evalPack_noArity q funs params args s1 h.2 hpp) fun rs s2 =>
            noArity_ok _ _
      · exact noArity_andThen _ _ (evalPack_noArity q funs params args s h.2 hpp) fun rs s1 =>
          noArity_andThen _ _ (eval_noArity q funs func args s1 h.1 hpf) fun f s2 =>
            noArity_ok _ _
    · have hplain : ∀ n, x.1 ≠ .node n := by
        split at hx
        · simp only [andThen_eq_ok] at hx
          obtain ⟨f, s1, hf, rs, s2, _, hfr⟩ := hx
          simp at hfr
          rw [← hfr.1]
          exact eval_plain q funs func args _ _ f hy hf
        · simp only [andThen_eq_ok] at hx
          obtain ⟨rs, s1, _, f, s2, hf, hfr⟩ := hx
          simp at hfr
          rw [← hfr.1]
          exact eval_plain q funs func args _ _ f hy hf
      split
      · rename_i n hn
        exact absurd hn (hplain n)
      · refine noArity_andThen _ _ (noArity_still _ _ (load_ne_arity _ _)) fun f s3 =>
          noArity_andThen _ _ (noArity_still _ _ (loadAll_ne_arity _ _)) fun vs s3 => ?_
        split
        · exact noArity_andThen _ _ (noArity_still _ _ (callFn_ne_arity _ _ _)) fun v s3 =>
            noArity_ok _ _
        · simp [NoArity]
  | .unOp op rhs, args, s, h, hp => by
    simp [instantiates] at h
    simp [plainCallees] at hp
    simp only [eval]
    refine noArity_andThen _ _ (eval_noArity q funs rhs args s h hp) fun r s1 => ?_
    split
    · exact noArity_ok _ _
    · exact applyUn_noArity _ _ _
  | .postOp op lhs, args, s, h, hp => by
    simp [instantiates] at h
    simp [plainCallees] at hp
    simp only [eval]
    refine noArity_andThen _ _ (eval_noArity q funs lhs args s h hp) fun r s1 => ?_
    split
    · exact noArity_ok _ _
    · exact applyPost_noArity _ _ _
  | .binOp op lhs rhs, args, s, h, hp => by
    simp [instantiates] at h
    simp [plainCallees] at hp
    have hl := fun s => eval_noArity q funs lhs args s h.1 hp.1
    have hr := fun s => eval_noArity q funs rhs args s h.2 hp.2
    simp only [eval]
    split
    · refine noArity_andThen _ _ ?_ fun x s2 => noArity_still _ _ (built_ne_arity _)
      split
      · exact noArity_andThen _ _ (hl _) fun l s1 =>
          noArity_andThen _ _ (hr _) fun r s2 => noArity_ok _ _
      · exact noArity_andThen _ _ (hr _) fun r s1 =>
          noArity_andThen _ _ (hl _) fun l s2 => noArity_ok _ _
    · split
      · refine noArity_andThen _ _ (hl _) fun l s1 =>
          noArity_andThen _ _ (noArity_still _ _ (truth_ne_arity _ _)) fun a s1 => ?_
        split
        · exact noArity_andThen _ _ (hr _) fun r s2 =>
            noArity_andThen _ _ (noArity_still _ _ (truth_ne_arity _ _)) fun b s2 =>
              noArity_ok _ _
        · exact noArity_ok _ _
      · refine noArity_andThen _ _ (hl _) fun l s1 =>
          noArity_andThen _ _ (noArity_still _ _ (truth_ne_arity _ _)) fun a s1 => ?_
        split
        · exact noArity_ok _ _
        · exact noArity_andThen _ _ (hr _) fun r s2 =>
            noArity_andThen _ _ (noArity_still _ _ (truth_ne_arity _ _)) fun b s2 =>
              noArity_ok _ _
      · exact noArity_andThen _ _ (hl _) fun l s1 => hr _
      · split
        · exact noArity_andThen _ _ (hr _) fun r s1 =>
            noArity_andThen _ _ (noArity_still _ _ (rval_ne_arity _ _)) fun v s1 =>
              noArity_andThen _ _ (hl _) fun l s2 => compoundTo_noArity _ _ _ _
        · split
          · exact noArity_andThen _ _ (hl _) fun l s1 =>
              noArity_andThen _ _ (noArity_still _ _ (rval_ne_arity _ _)) fun a s1 =>
                noArity_andThen _ _ (hr _) fun r s2 =>
                  noArity_andThen _ _ (noArity_still _ _ (rval_ne_arity _ _)) fun b s2 =>
                    valueOp_noArity _ _ _ _
          · exact noArity_andThen _ _ (hr _) fun r s1 =>
              noArity_andThen _ _ (noArity_still _ _ (rval_ne_arity _ _)) fun b s1 =>
                noArity_andThen _ _ (hl _) fun l s2 =>
                  noArity_andThen _ _ (noArity_still _ _ (rval_ne_arity _ _)) fun a s2 =>
                    valueOp_noArity _ _ _ _

theorem evalPack_noArity (q : Sequencing) (funs : Funs) :
    ∀ (ps : List Node) (args : List ArgRef) (s : Store),
      instantiatesAll ps args.length = true → plainCalleesAll ps args = true →
      NoArity (evalPack q funs ps args s)
  | [], _, _, _, _ => by simp [evalPack, NoArity]
  | p :: ps, args, s, h, hp => by
    simp [instantiatesAll] at h
    simp [plainCalleesAll] at hp
    simp only [evalPack]
    split
    · exact noArity_andThen _ _ (eval_noArity q funs p args s h.1 hp.1) fun r s1 =>
        noArity_andThen _ _ (evalPack_noArity q funs ps args s1 h.2 hp.2) fun rs s2 =>
          noArity_ok _ _
    · exact noArity_andThen _ _ (evalPack_noArity q funs ps args s h.2 hp.2) fun rs s1 =>
        noArity_andThen _ _ (eval_noArity q funs p args s1 h.1 hp.1) fun r s2 =>
          noArity_ok _ _

end

mutual

theorem instantiates_iff (n : Nat) :
    ∀ t : Node, instantiates t n = true ↔ ∀ I, mentions t I = true → I < n
  | .placeholder I => by simp [instantiates, mentions]
  | .variable _ => by simp [instantiates, mentions]
  | .constant _ => by simp [instantiates, mentions]
  | .assign op rhs => by
    simp [instantiates, mentions, instantiates_iff n op, instantiates_iff n rhs, or_imp,
      forall_and]
  | .index op index => by
    simp [instantiates, mentions, instantiates_iff n op, instantiates_iff n index, or_imp,
      forall_and]
  | .varAssign _ rhs => by simp [instantiates, mentions, instantiates_iff n rhs]
  | .varIndex _ index => by simp [instantiates, mentions, instantiates_iff n index]
  | .constIndex _ index => by simp [instantiates, mentions, instantiates_iff n index]
  | .memFun _ _ => by simp [instantiates, mentions]
  | .memCall I _ params => by
    simp [instantiates, mentions, instantiatesAll_iff n params, or_imp, forall_and]
  | .memObj I _ => by simp [instantiates, mentions]
  | .phIndex I index => by
    simp [instantiates, mentions, instantiates_iff n index, or_imp, forall_and]
  | .phAssign I rhs => by
    simp [instantiates, mentions, instantiates_iff n rhs, or_imp, forall_and]
  | .bind func params => by
    simp [instantiates, mentions, instantiates_iff n func, instantiatesAll_iff n params, or_imp,
      forall_and]
  | .unOp _ rhs => by simp [instantiates, mentions, instantiates_iff n rhs]
  | .postOp _ lhs => by simp [instantiates, mentions, instantiates_iff n lhs]
  | .binOp _ lhs rhs => by
    simp [instantiates, mentions, instantiates_iff n lhs, instantiates_iff n rhs, or_imp,
      forall_and]

theorem instantiatesAll_iff (n : Nat) :
    ∀ ps : List Node, instantiatesAll ps n = true ↔ ∀ I, mentionsAny ps I = true → I < n
  | [] => by simp [instantiatesAll, mentionsAny]
  | p :: ps => by
    simp [instantiatesAll, mentionsAny, instantiates_iff n p, instantiatesAll_iff n ps, or_imp,
      forall_and]

end

/-- C6 fails for a callee that is an expression object: in `bind(_1, _2)(_2, x)`
both placeholders of the tree are below the argument count 2, yet the callee
that `_1` selects is the argument `_2`, which `std::invoke` calls with the one
parameter result `x`: the call meets "Placeholder out of range". -/
theorem C6_counterexample :
    bind (.node _1) [.node _2] = .bind _1 [_2] ∧
    (∀ I, mentions (.bind _1 [_2]) I = true → I < [Operand.node _2, .lvalue ⟨0, []⟩].length) ∧
    invoke leftFirst noFuns (.bind _1 [_2]) [.node _2, .lvalue ⟨0, []⟩] [some (.int 0)]
      = (.error .arity, [some (.int 0)]) ∧
    ¬ (invoke leftFirst noFuns (.bind _1 [_2]) [.node _2, .lvalue ⟨0, []⟩] [some (.int 0)]).1
      ≠ .error .arity :=
  ⟨rfl, (instantiates_iff 2 (.bind _1 [_2])).mp rfl, rfl, fun h => h rfl⟩

/-- C6, amended: a placeholder out of range is rejected before anything runs.
If some body of the tree selects argument `I` and the call supplies at most `I`
arguments, the call fails with the placeholder assertion and the store is the
one before the call; if every selected index is below the number of arguments
and no callee handed to `bind` is an expression object, the call does not fail
with that assertion. -/
theorem C6_placeholder_arity (q : Sequencing) (funs : Funs) (t : Node) (args : List Operand)
    (s : Store) :
    (∀ I, mentions t I = true → args.length ≤ I →
      invoke q funs t args s = (.error .arity, s)) ∧
    ((∀ I, mentions t I = true → I < args.length) →
      plainCallees t (materialize args s).1 = true →
      (invoke q funs t args s).1 ≠ .error .arity) := by
  constructor
  · intro I hI hle
    have : instantiates t args.length = false := by
      by_contra hn
      have := (instantiates_iff args.length t).mp (by simpa using hn) I hI
      omega
    simp [invoke, this]
  · intro h hp
    have hi := (instantiates_iff args.length t).mpr h
    rw [invoke_of_instantiates q funs t args s hi]
    exact eval_noArity q funs t _ _ (by rw [materialize_length]; exact hi) hp

/-- C6 at `(_1 || ++_2)(true)`: the placeholder `_2` sits in the branch that
would be skipped, and the call is rejected all the same, with `i` untouched. -/
theorem C6_placeholder_arity_witness :
    unary .preInc (.node _2) = some (.unOp .preInc _2) ∧
    binary .lor (.node _1) (.node (.unOp .preInc _2)) = some (.binOp .lor _1 (.unOp .preInc _2)) ∧
    mentions (.binOp .lor _1 (.unOp .preInc _2)) 1 = true ∧
    [Operand.rvalue (.bool true)].length ≤ 1 ∧
    invoke leftFirst noFuns (.binOp .lor _1 (.unOp .preInc _2)) [.rvalue (.bool true)]
        [some (.int 0)]
      = (.error .arity, [some (.int 0)]) ∧
    plainCallees (.binOp .lor _1 (.unOp .preInc _2))
      (materialize [.rvalue (.bool true), .lvalue ⟨0, []⟩] [some (.int 0)]).1 = true ∧
    (invoke leftFirst noFuns (.binOp .lor _1 (.unOp .preInc _2))
        [.rvalue (.bool true), .lvalue ⟨0, []⟩] [some (.int 0)]).1 ≠ .error .arity :=
  ⟨rfl, rfl, rfl, by decide,
    (C6_placeholder_arity leftFirst noFuns (.binOp .lor _1 (.unOp .preInc _2))
      [.rvalue (.bool true)] [some (.int 0)]).1 1 rfl (by decide),
    rfl,
    (C6_placeholder_arity leftFirst noFuns (.binOp .lor _1 (.unOp .preInc _2))
      [.rvalue (.bool true), .lvalue ⟨0, []⟩] [some (.int 0)]).2
      ((instantiates_iff 2 (.binOp .lor _1 (.unOp .preInc _2))).mp rfl) rfl⟩

theorem invokeValue_gt (q : Sequencing) (funs : Funs) (a b : Int) (s : Store) :
    invokeValue q funs (.binOp .gt _1 _2) [.rvalue (.int a), .rvalue (.int b)] s
      = (.ok (.bool (decide (a > b))), s ++ [none, none]) := by
  have h1 : (s ++ [some (.int a), some (.int b)] : Store)[s.length]? = some (some (.int a)) := by
    rw [getElem?_append_length]; rfl
  have h2 : (s ++ [some (.int a), some (.int b)] : Store)[s.length + 1]? = some (some (.int b)) := by
    rw [getElem?_append_add]; rfl
  have h4 : List.take s.length (s ++ [some (.int a), some (.int b)] : Store) = s := by
    simp
  cases hq : q.operandsLeftFirst <;>
  simp [invokeValue, invoke, instantiates, _1, _2, materialize, eval, yieldsNode, isNodeArg,
    leftOperandFirst, BinOp.base, andThen, still, getArg, valueOp, rval, read, getPath, h1, h2,
    h4, hq, applyBin, toInt, intOp, load, endFullExpression]

theorem holds_gt (q : Sequencing) (funs : Funs) (a b : Int) :
    holds q funs (.binOp .gt _1 _2) a b = decide (a > b) := by
  simp [holds, invokeValue_gt, toBool]

theorem insertBy_gt (q : Sequencing) (funs : Funs) (x : Int) (l : List Int) :
    insertBy q funs (.binOp .gt _1 _2) x l = l.orderedInsert (· ≥ ·) x := by
  induction l with
  | nil => rfl
  | cons y ys ih =>
    simp only [insertBy, holds_gt, List.orderedInsert, ih]
    by_cases h : y > x
    · have h' : ¬ x ≥ y := by omega
      simp [h, h']
    · have h' : x ≥ y := by omega
      simp [h, h']

theorem sort_gt (q : Sequencing) (funs : Funs) (xs : List Int) :
    sort q funs (.binOp .gt _1 _2) xs = xs.insertionSort (· ≥ ·) := by
  induction xs with
  | nil => rfl
  | cons x xs ih => simp [sort, ih, insertBy_gt, List.insertionSort]

/-- C7: the comparator `_1 > _2`.  The tree that `operator>` builds from `_1`
and `_2`, invoked with `(a, b)`, returns `a > b`.  Sorting pairwise distinct
integers with it, each comparison being a call of the tree, yields a strictly
descending permutation of the input, which satisfies the postcondition of
`std::sort`; and whatever satisfies that postcondition is this same list. -/
theorem C7_gt_comparator (q : Sequencing) (funs : Funs) (comp : Node) (xs : List Int)
    (hc : binary .gt (.node _1) (.node _2) = some comp) (hnd : xs.Nodup) :
    comp = .binOp .gt _1 _2 ∧
    (∀ (a b : Int) (s : Store),
      invokeValue q funs comp [.rvalue (.int a), .rvalue (.int b)] s
        = (.ok (.bool (decide (a > b))), s ++ [none, none])) ∧
    (sort q funs comp xs).Perm xs ∧
    List.Sorted (· > ·) (sort q funs comp xs) ∧
    is_sorted q funs comp xs (sort q funs comp xs) ∧
    (∀ out : List Int, is_sorted q funs comp xs out → out = sort q funs comp xs) := by
  have hcomp : comp = .binOp .gt _1 _2 := by
    simpa [binary, is_expression, expressify] using hc.symm
  subst hcomp
  rw [sort_gt]
  have hperm := List.perm_insertionSort (· ≥ ·) xs
  have hge : (xs.insertionSort (· ≥ ·)).Pairwise (· ≥ ·) := List.sorted_insertionSort (· ≥ ·) xs
  have strict : ∀ out : List Int, out.Perm xs → out.Pairwise (· ≥ ·) → out.Pairwise (· > ·) := by
    intro out hp hpw
    have hne : out.Pairwise (· ≠ ·) := hp.nodup_iff.mpr hnd
    refine (hpw.and hne).imp ?_
    intro x y h
    exact lt_of_le_of_ne h.1 (Ne.symm h.2)
  refine ⟨rfl, invokeValue_gt q funs, hperm, strict _ hperm hge, ⟨hperm, ?_⟩, ?_⟩
  · refine hge.imp ?_
    intro x y h
    simp [holds_gt]
    exact h
  · rintro out ⟨hp, hpw⟩
    have hge' : out.Pairwise (· ≥ ·) := by
      refine hpw.imp ?_
      intro x y h
      simp [holds_gt] at h
      exact h
    exact List.eq_of_perm_of_sorted (hp.trans hperm.symm) hge' hge

/-- C7 on the test case: `[3,5,1,7,2,4,6]` sorts to `[7,6,5,4,3,2,1]`. -/
theorem C7_gt_comparator_witness :
    binary .gt (.node _1) (.node _2) = some (.binOp .gt _1 _2) ∧
    ([3, 5, 1, 7, 2, 4, 6] : List Int).Nodup ∧
    sort leftFirst noFuns (.binOp .gt _1 _2) [3, 5, 1, 7, 2, 4, 6] = [7, 6, 5, 4, 3, 2, 1] ∧
    List.Sorted (· > ·) (sort leftFirst noFuns (.binOp .gt _1 _2) [3, 5, 1, 7, 2, 4, 6]) ∧
    is_sorted leftFirst noFuns (.binOp .gt _1 _2) [3, 5, 1, 7, 2, 4, 6] [7, 6, 5, 4, 3, 2, 1] ∧
    ([7, 6, 5, 4, 3, 2, 1] : List Int)
      = sort leftFirst noFuns (.binOp .gt _1 _2) [3, 5, 1, 7, 2, 4, 6] :=
  ⟨rfl, by decide, rfl,
    (C7_gt_comparator leftFirst noFuns (.binOp .gt _1 _2) [3, 5, 1, 7, 2, 4, 6] rfl
      (by decide)).2.2.2.1,
    by decide,
    (C7_gt_comparator leftFirst noFuns (.binOp .gt _1 _2) [3, 5, 1, 7, 2, 4, 6] rfl
      (by decide)).2.2.2.2.2 [7, 6, 5, 4, 3, 2, 1] (by decide)⟩

theorem invokeValue_add (q : Sequencing) (funs : Funs) (a b : Int) (s : Store)
    (hab : inRange (a + b) = true) :
    invokeValue q funs (.binOp .add _1 _2) [.rvalue (.int a), .rvalue (.int b)] s
      = (.ok (.int (a + b)), s ++ [none, none]) := by
  have h1 : (s ++ [some (.int a), some (.int b)] : Store)[s.length]? = some (some (.int a)) := by
    rw [getElem?_append_length]; rfl
  have h2 : (s ++ [some (.int a), some (.int b)] : Store)[s.length + 1]? = some (some (.int b)) := by
    rw [getElem?_append_add]; rfl
  have h4 : List.take s.length (s ++ [some (.int a), some (.int b)] : Store) = s := by
    simp
  cases hq : q.operandsLeftFirst <;>
  simp [invokeValue, invoke, instantiates, _1, _2, materialize, eval, yieldsNode, isNodeArg,
    leftOperandFirst, BinOp.base, andThen, still, getArg, valueOp, rval, read, getPath, h1, h2,
    h4, hq, applyBin, toInt, intOp, load, endFullExpression, mkInt, hab]

/-- C8: the combinator `_1 + _2`.  The tree that `operator+` builds from `_1`
and `_2`, invoked with `(a, b)` whose sum fits `int`, returns `a + b`; applied
element-wise to two sequences of equal length it yields the sequence of
pairwise sums. -/
theorem C8_add_transform (q : Sequencing) (funs : Funs) (plus : Node) (xs ys : List Int)
    (hc : binary .add (.node _1) (.node _2) = some plus)
    (hlen : xs.length = ys.length)
    (hr : ∀ p ∈ xs.zip ys, inRange (p.1 + p.2) = true) :
    plus = .binOp .add _1 _2 ∧
    (∀ (a b : Int) (s : Store), inRange (a + b) = true →
      invokeValue q funs plus [.rvalue (.int a), .rvalue (.int b)] s
        = (.ok (.int (a + b)), s ++ [none, none])) ∧
    transform q funs plus (xs.map .int) (ys.map .int)
      = .ok ((List.zipWith (· + ·) xs ys).map .int) ∧
    (List.zipWith (· + ·) xs ys).length = xs.length := by
  have hplus : plus = .binOp .add _1 _2 := by
    simpa [binary, is_expression, expressify] using hc.symm
  subst hplus
  refine ⟨rfl, fun a b s h => invokeValue_add q funs a b s h, ?_, by simp [hlen]⟩
  clear hlen
  induction xs generalizing ys with
  | nil => simp [transform]
  | cons x xs ih =>
    cases ys with
    | nil => simp [transform]
    | cons y ys =>
      have hxy : inRange (x + y) = true := hr (x, y) (by simp)
      have htl : ∀ p ∈ xs.zip ys, inRange (p.1 + p.2) = true := fun p hp =>
        hr p (by simp [hp])
      simp [transform, invokeValue_add q funs x y [] hxy, ih ys htl]

/-- C8 on the test case: `[1,2,3]` and `[4,5,6]` give `[5,7,9]`. -/
theorem C8_add_transform_witness :
    binary .add (.node _1) (.node _2) = some (.binOp .add _1 _2) ∧
    ([1, 2, 3] : List Int).length = ([4, 5, 6] : List Int).length ∧
    (∀ p ∈ ([1, 2, 3] : List Int).zip [4, 5, 6], inRange (p.1 + p.2) = true) ∧
    transform leftFirst noFuns (.binOp .add _1 _2) [.int 1, .int 2, .int 3]
        [.int 4, .int 5, .int 6]
      = .ok [.int 5, .int 7, .int 9] :=
  ⟨rfl, rfl, by decide,
    (C8_add_transform leftFirst noFuns (.binOp .add _1 _2) [1, 2, 3] [4, 5, 6] rfl rfl
      (by decide)).2.2.1⟩

theorem read_set_other (s : Store) (k : Nat) (x : Option Val) (l : LVal) (h : l.loc ≠ k) :
    read (s.set k x) l = read s l := by
  simp [read, List.getElem?_set_ne (Ne.symm h)]

theorem set_eq_self_of_getElem? {α : Type} :
    ∀ (s : List α) (k : Nat) (a : α), s[k]? = some a → s.set k a = s
  | [], _, _, h => by simp at h
  | x :: xs, 0, a, h => by
    simp at h
    simp [h]
  | x :: xs, k + 1, a, h => by
    simp at h
    simp [set_eq_self_of_getElem? xs k a h]

theorem read_cell (s : Store) (k : Nat) (v : Val) (h : s[k]? = some (some v)) :
    read s ⟨k, []⟩ = .ok v := by
  simp [read, h, getPath]

theorem write_cell (s : Store) (k : Nat) (v w : Val) (h : s[k]? = some (some v)) :
    write s ⟨k, []⟩ w = .ok (s.set k (some w)) := by
  simp [write, h, setPath]

/-- One step of the accumulation. -/
theorem invoke_addAssign (q : Sequencing) (funs : Funs) (sum : Nat) (s : Store) (s0 x : Int)
    (l : LVal) (hsum : s[sum]? = some (some (.int s0))) (hl : read s l = .ok (.int x))
    (hr : inRange (s0 + x) = true) :
    invoke q funs (.binOp .addAssign (.variable ⟨sum, []⟩) _1) [.lvalue l] s
      = (.ok (.lv ⟨sum, []⟩), s.set sum (some (.int (s0 + x)))) := by
  have h1 : rval s (.lv l) = .ok (.int x) := by simp [rval, hl]
  simp [invoke, instantiates, _1, materialize, eval, yieldsNode, isNodeArg, BinOp.base, andThen,
    still, getArg, h1, compoundTo, read_cell s sum _ hsum, applyBin, toInt, intOp, mkInt, hr,
    convertTo, write_cell s sum _ _ hsum]

/-- C9: accumulation through a `variable`.  The tree `sum += _1`, built once
and handed to `for_each`, is invoked on every element in order; with no running
sum out of range the caller's `sum` ends as `s0` plus the sum of the elements,
and nothing else in the store changes. -/
theorem C9_accumulate (q : Sequencing) (funs : Funs) (sum : Nat) (s : Store) (s0 : Int)
    (els : List LVal) (xs : List Int)
    (hsum : s[sum]? = some (some (.int s0)))
    (hels : List.Forall₂ (fun l x => read s l = .ok (.int x) ∧ l.loc ≠ sum) els xs)
    (hr : sumsInRange s0 xs = true) :
    binary .addAssign (.lvalue ⟨sum, []⟩) (.node _1)
      = some (.binOp .addAssign (.variable ⟨sum, []⟩) _1) ∧
    for_each q funs (.binOp .addAssign (.variable ⟨sum, []⟩) _1) els s
      = (.ok (), s.set sum (some (.int (s0 + xs.sum)))) := by
  refine ⟨rfl, ?_⟩
  induction els generalizing s0 s xs with
  | nil =>
    cases hels
    simp [for_each, set_eq_self_of_getElem? s sum _ hsum]
  | cons l els ih =>
    cases hels with
    | @cons _ x _ xs hlx htl =>
      simp only [sumsInRange, Bool.and_eq_true] at hr
      obtain ⟨hx, hrest⟩ := hr
      have hk : sum < s.length := by
        rcases List.getElem?_eq_some_iff.mp hsum with ⟨hk, _⟩
        exact hk
      have hsum' : (s.set sum (some (.int (s0 + x))))[sum]? = some (some (.int (s0 + x))) := by
        simp [hk]
      have htl' : List.Forall₂ (fun l x' =>
          read (s.set sum (some (.int (s0 + x)))) l = .ok (.int x') ∧ l.loc ≠ sum) els xs := by
        refine htl.imp ?_
        intro l' x' h
        exact ⟨by rw [read_set_other _ _ _ _ h.2]; exact h.1, h.2⟩
      simp only [for_each]
      rw [invoke_addAssign q funs sum s s0 x l hsum hlx.1 hx]
      simp only [andThen]
      rw [ih (s.set sum (some (.int (s0 + x)))) (s0 + x) xs hsum' htl' hrest]
      simp [List.set_set, add_assoc]

/-- C9 on the test case: `sum == 0` and `[1,2,3]` leave `sum == 6`. -/
theorem C9_accumulate_witness :
    ([some (.int 0), some (.arr [.int 1, .int 2, .int 3])] : Store)[0]? = some (some (.int 0)) ∧
    sumsInRange 0 [1, 2, 3] = true ∧
    for_each leftFirst noFuns (.binOp .addAssign (.variable ⟨0, []⟩) _1)
        [⟨1, [0]⟩, ⟨1, [1]⟩, ⟨1, [2]⟩] [some (.int 0), some (.arr [.int 1, .int 2, .int 3])]
      = (.ok (), [some (.int 6), some (.arr [.int 1, .int 2, .int 3])]) :=
  ⟨rfl, by decide,
    (C9_accumulate leftFirst noFuns 0 [some (.int 0), some (.arr [.int 1, .int 2, .int 3])] 0
      [⟨1, [0]⟩, ⟨1, [1]⟩, ⟨1, [2]⟩] [1, 2, 3] rfl
      (.cons ⟨rfl, by decide⟩ (.cons ⟨rfl, by decide⟩ (.cons ⟨rfl, by decide⟩ .nil)))
      (by decide)).2⟩

/-- Reading and writing a data member of a class object held in a cell. -/
theorem read_member (s : Store) (a i : Nat) (fs : List Val) (x : Val)
    (ha : s[a]? = some (some (.rcd fs))) (hi : fs[i]? = some x) :
    read s ⟨a, [i]⟩ = .ok x := by
  simp [read, ha, getPath, children, hi]

theorem write_member (s : Store) (a i : Nat) (fs : List Val) (x w : Val)
    (ha : s[a]? = some (some (.rcd fs))) (hi : fs[i]? = some x) :
    write s ⟨a, [i]⟩ w = .ok (s.set a (some (.rcd (fs.set i w)))) := by
  simp [write, ha, setPath, children, hi, rebuild]

/-- The right operand of an assignment, kept and then read in the same store,
gives what the object holds. -/
theorem load_source (s : Store) (l : LVal) (w : Val) (h : read s l = .ok w) :
    ∃ src, source s (.lv l) = .ok src ∧ load s src = .ok w := by
  cases w with
  | rcd fs => exact ⟨.lv l, by simp [source, h], by simp [load, h]⟩
  | arr es => exact ⟨.lv l, by simp [source, h], by simp [load, h]⟩
  | int n => exact ⟨.rv (.int n), by simp [source, h], rfl⟩
  | bool b => exact ⟨.rv (.bool b), by simp [source, h], rfl⟩
  | flt x => exact ⟨.rv (.flt x), by simp [source, h], rfl⟩
  | ptr b p => exact ⟨.rv (.ptr b p), by simp [source, h], rfl⟩
  | fn f => exact ⟨.rv (.fn f), by simp [source, h], rfl⟩

/-- C10: member-object assignment.  For a class object `a` whose data member
`i` holds `x`, and a value `w` that converts to the member's type as `w'` (`w`
itself when the types agree), `((_1->*&A::i) = _2)(a, w)` leaves `a.i == w'`,
every other member of `a` as it was, every other cell of the store as it was,
and the second argument (a temporary, or a caller variable `b`) unchanged. -/
theorem C10_member_assign (q : Sequencing) (funs : Funs) (s : Store) (a i b : Nat)
    (fs : List Val) (x w w' : Val)
    (ha : s[a]? = some (some (.rcd fs)))
    (hi : fs[i]? = some x)
    (hc : convertTo x w = .ok w')
    (hb : s[b]? = some (some w))
    (hab : b ≠ a) :
    arrowStar _1 (.object i) = some (.memObj 0 i) ∧
    assignOp (.memObj 0 i) (.node _2) = some (.assign (.memObj 0 i) _2) ∧
    invoke q funs (.assign (.memObj 0 i) _2) [.lvalue ⟨a, []⟩, .rvalue w] s
      = (.ok (.lv ⟨a, [i]⟩), s.set a (some (.rcd (fs.set i w'))) ++ [some w]) ∧
    invoke q funs (.assign (.memObj 0 i) _2) [.lvalue ⟨a, []⟩, .lvalue ⟨b, []⟩] s
      = (.ok (.lv ⟨a, [i]⟩), s.set a (some (.rcd (fs.set i w')))) ∧
    (fs.set i w')[i]? = some w' ∧
    (∀ j, j ≠ i → (fs.set i w')[j]? = fs[j]?) ∧
    (∀ k, k ≠ a → (s.set a (some (.rcd (fs.set i w'))))[k]? = s[k]?) ∧
    (s.set a (some (.rcd (fs.set i w'))))[b]? = some (some w) := by
  have hk : a < s.length := by
    rcases List.getElem?_eq_some_iff.mp ha with ⟨hk, _⟩
    exact hk
  have hik : i < fs.length := by
    rcases List.getElem?_eq_some_iff.mp hi with ⟨hk, _⟩
    exact hk
  have ha' : (s ++ [some w] : Store)[a]? = some (some (.rcd fs)) := by
    rw [List.getElem?_append_left hk]; exact ha
  have ht : (s ++ [some w] : Store)[s.length]? = some (some w) := by
    rw [getElem?_append_length]; rfl
  refine ⟨rfl, rfl, ?_, ?_, ?_, ?_, ?_, ?_⟩
  · obtain ⟨src, h0, h1⟩ := load_source (s ++ [some w]) ⟨s.length, []⟩ w (read_cell _ _ _ ht)
    have h2 : memberOf i (.lv ⟨a, []⟩) (s ++ [some w]) = .ok (.lv ⟨a, [i]⟩) := by
      simp [memberOf, read_cell _ _ _ ha', hik]
    simp [invoke, instantiates, _2, materialize, eval, andThen, still, getArg, h0, h1, h2,
      assignTo, read_member _ a i fs _ ha' hi, hc, write_member _ a i fs _ _ ha' hi,
      List.set_append_left _ _ hk]
  · obtain ⟨src, h0, h1⟩ := load_source s ⟨b, []⟩ w (read_cell _ _ _ hb)
    have h2 : memberOf i (.lv ⟨a, []⟩) s = .ok (.lv ⟨a, [i]⟩) := by
      simp [memberOf, read_cell _ _ _ ha, hik]
    simp [invoke, instantiates, _2, materialize, eval, andThen, still, getArg, h0, h1, h2,
      assignTo, read_member _ a i fs _ ha hi, hc, write_member _ a i fs _ _ ha hi]
  · simp [hik]
  · intro j hj
    simp [List.getElem?_set_ne (Ne.symm hj)]
  · intro k hkne
    simp [List.getElem?_set_ne (Ne.symm hkne)]
  · rw [List.getElem?_set_ne (Ne.symm hab)]
    exact hb

/-- C10 on the test case: `((_1->*&A::i) = _2)(a, 5)` gives `a.i == 5`; with a
second member and a caller variable as second argument, both stay as they were. -/
theorem C10_member_assign_witness :
    ([some (.rcd [.int 0, .int 7]), some (.int 5)] : Store)[0]?
      = some (some (.rcd [.int 0, .int 7])) ∧
    ([.int 0, .int 7] : List Val)[0]? = some (.int 0) ∧
    convertTo (.int 0) (.int 5) = .ok (.int 5) ∧
    invoke leftFirst noFuns (.assign (.memObj 0 0) _2) [.lvalue ⟨0, []⟩, .rvalue (.int 5)]
        [some (.rcd [.int 0, .int 7]), some (.int 5)]
      = (.ok (.lv ⟨0, [0]⟩), [some (.rcd [.int 5, .int 7]), some (.int 5), some (.int 5)]) ∧
    invoke leftFirst noFuns (.assign (.memObj 0 0) _2) [.lvalue ⟨0, []⟩, .lvalue ⟨1, []⟩]
        [some (.rcd [.int 0, .int 7]), some (.int 5)]
      = (.ok (.lv ⟨0, [0]⟩), [some (.rcd [.int 5, .int 7]), some (.int 5)]) :=
  ⟨rfl, rfl, rfl,
    (C10_member_assign leftFirst noFuns [some (.rcd [.int 0, .int 7]), some (.int 5)] 0 0 1
      [.int 0, .int 7] (.int 0) (.int 5) (.int 5) rfl rfl rfl rfl (by decide)).2.2.1,
    (C10_member_assign leftFirst noFuns [some (.rcd [.int 0, .int 7]), some (.int 5)] 0 0 1
      [.int 0, .int 7] (.int 0) (.int 5) (.int 5) rfl rfl rfl rfl (by decide)).2.2.2.1⟩

theorem length_of_getElem? {α : Type} (s : List α) (k : Nat) (a : α) (h : s[k]? = some a) :
    k < s.length := by
  rcases List.getElem?_eq_some_iff.mp h with ⟨hk, _⟩
  exact hk

theorem children_rebuild (v : Val) (es es' : List Val) (h : children v = some es) :
    children (rebuild v es') = some es' := by
  cases v <;> simp [children] at h <;> simp [rebuild, children]

theorem getPath_setPath (v : Val) (p : List Nat) (w v' : Val) (h : setPath v p w = some v') :
    getPath v' p = some w := by
  induction p generalizing v v' with
  | nil => simp [setPath] at h; simp [getPath, h]
  | cons k p ih =>
    simp only [setPath] at h
    split at h
    · rename_i es hes
      split at h
      · rename_i e he
        split at h
        · rename_i e' he'
          simp at h
          subst h
          have hk := length_of_getElem? es k _ he
          simp [getPath, children_rebuild v es _ hes, hk, ih e e' he']
        · simp at h
      · simp at h
    · simp at h

theorem getPath_setPath_apart (v : Val) (p p' : List Nat) (w v' : Val)
    (h : setPath v p w = some v') (h1 : ¬ p <+: p') (h2 : ¬ p' <+: p) :
    getPath v' p' = getPath v p' := by
  induction p generalizing v v' p' with
  | nil => exact absurd (List.nil_prefix) h1
  | cons k p ih =>
    cases p' with
    | nil => exact absurd (List.nil_prefix) h2
    | cons k' p' =>
      simp only [setPath] at h
      split at h
      · rename_i es hes
        split at h
        · rename_i e he
          split at h
          · rename_i e' he'
            simp at h
            subst h
            have hk := length_of_getElem? es k _ he
            by_cases hkk : k' = k
            · subst hkk
              have h1' : ¬ p <+: p' := fun hp => h1 (List.cons_prefix_cons.mpr ⟨rfl, hp⟩)
              have h2' : ¬ p' <+: p := fun hp => h2 (List.cons_prefix_cons.mpr ⟨rfl, hp⟩)
              simp [getPath, children_rebuild v es _ hes, hes, hk, he, ih e p' e' he' h1' h2']
            · simp [getPath, children_rebuild v es _ hes, hes,
                List.getElem?_set_ne (Ne.symm hkk)]
          · simp at h
        · simp at h
      · simp at h

theorem setPath_of_getPath (v : Val) (p : List Nat) (x w : Val) (h : getPath v p = some x) :
    ∃ v', setPath v p w = some v' := by
  induction p generalizing v with
  | nil => exact ⟨w, rfl⟩
  | cons k p ih =>
    simp only [getPath] at h
    split at h
    · rename_i es hes
      split at h
      · rename_i e he
        obtain ⟨e', he'⟩ := ih e h
        exact ⟨rebuild v (es.set k e'), by simp [setPath, hes, he, he']⟩
      · simp at h
    · simp at h

theorem write_of_read (s : Store) (l : LVal) (x w : Val) (h : read s l = .ok x) :
    ∃ s', write s l w = .ok s' := by
  simp only [read] at h
  split at h
  · rename_i v hv
    split at h
    · rename_i y hy
      obtain ⟨v', hv'⟩ := setPath_of_getPath v l.path y w hy
      exact ⟨s.set l.loc (some v'), by simp [write, hv, hv']⟩
    · simp at h
  · simp at h

theorem read_write_same (s s' : Store) (l : LVal) (w : Val) (h : write s l w = .ok s') :
    read s' l = .ok w := by
  simp only [write] at h
  split at h
  · rename_i v hv
    split at h
    · rename_i v' hv'
      simp at h
      subst h
      have hk := length_of_getElem? s l.loc _ hv
      simp [read, hk, getPath_setPath v l.path w v' hv']
    · simp at h
  · simp at h

theorem read_write_apart (s s' : Store) (l l' : LVal) (w : Val) (h : write s l w = .ok s')
    (hd : l.disjoint l') : read s' l' = read s l' := by
  simp only [write] at h
  split at h
  · rename_i v hv
    split at h
    · rename_i v' hv'
      simp at h
      subst h
      have hk := length_of_getElem? s l.loc _ hv
      by_cases hloc : l'.loc = l.loc
      · rcases hd with hd | ⟨h1, h2⟩
        · exact absurd hloc.symm hd
        · simp [read, hloc, hk, hv, getPath_setPath_apart v l.path l'.path w v' hv' h1 h2]
      · simp [read, List.getElem?_set_ne (Ne.symm hloc)]
    · simp at h
  · simp at h

theorem materialize_store (args : List Operand) (s : Store) :
    ∃ t, (materialize args s).2 = s ++ t := by
  induction args generalizing s with
  | nil => exact ⟨[], by simp [materialize]⟩
  | cons a as ih =>
    cases a with
    | node n => simpa [materialize] using ih s
    | lvalue l => simpa [materialize] using ih s
    | rvalue v =>
      obtain ⟨t, ht⟩ := ih (s ++ [some v])
      exact ⟨some v :: t, by simp [materialize, ht]⟩

theorem materialize_lvalue (args : List Operand) (s : Store) (i : Nat) (l : LVal)
    (h : args[i]? = some (.lvalue l)) : (materialize args s).1[i]? = some (.obj l) := by
  induction args generalizing s i with
  | nil => simp at h
  | cons a as ih =>
    cases i with
    | zero =>
      simp at h
      subst h
      simp [materialize]
    | succ i =>
      simp at h
      cases a <;> simp [materialize, ih _ i h]

theorem materialize_node (args : List Operand) (s : Store) (i : Nat) (n : Node)
    (h : args[i]? = some (.node n)) : (materialize args s).1[i]? = some (.node n) := by
  induction args generalizing s i with
  | nil => simp at h
  | cons a as ih =>
    cases i with
    | zero =>
      simp at h
      subst h
      simp [materialize]
    | succ i =>
      simp at h
      cases a <;> simp [materialize, ih _ i h]

theorem materialize_rvalue (args : List Operand) (s : Store) (i : Nat) (v : Val)
    (h : args[i]? = some (.rvalue v)) :
    ∃ c, s.length ≤ c ∧ (materialize args s).1[i]? = some (.obj ⟨c, []⟩) ∧
      (materialize args s).2[c]? = some (some v) := by
  induction args generalizing s i with
  | nil => simp at h
  | cons a as ih =>
    cases i with
    | zero =>
      simp at h
      subst h
      obtain ⟨t, ht⟩ := materialize_store as (s ++ [some v])
      refine ⟨s.length, Nat.le_refl _, by simp [materialize], ?_⟩
      simp only [materialize, ht, List.append_assoc]
      rw [getElem?_append_length]
      simp
    | succ i =>
      simp at h
      cases a with
      | node n =>
        obtain ⟨c, hc, h1, h2⟩ := ih s i h
        exact ⟨c, hc, by simpa [materialize] using h1, by simpa [materialize] using h2⟩
      | lvalue l =>
        obtain ⟨c, hc, h1, h2⟩ := ih s i h
        exact ⟨c, hc, by simpa [materialize] using h1, by simpa [materialize] using h2⟩
      | rvalue w =>
        obtain ⟨c, hc, h1, h2⟩ := ih (s ++ [some w]) i h
        refine ⟨c, ?_, by simpa [materialize] using h1, by simpa [materialize] using h2⟩
        simp at hc
        omega

theorem read_append (s t : Store) (l : LVal) (h : l.loc < s.length) :
    read (s ++ t) l = read s l := by
  simp [read, List.getElem?_append_left h]

/-- Reading and writing an element of an array held in a cell. -/
theorem read_elem (s : Store) (a k : Nat) (es : List Val) (x : Val)
    (ha : s[a]? = some (some (.arr es))) (hk : es[k]? = some x) :
    read s ⟨a, [k]⟩ = .ok x := by
  simp [read, ha, getPath, children, hk]

theorem write_elem (s : Store) (a k : Nat) (es : List Val) (x w : Val)
    (ha : s[a]? = some (some (.arr es))) (hk : es[k]? = some x) :
    write s ⟨a, [k]⟩ w = .ok (s.set a (some (.arr (es.set k w)))) := by
  simp [write, ha, setPath, children, hk, rebuild]

/-- One call of `++variable(arr)[_1]`. -/
theorem invoke_preInc_index (q : Sequencing) (funs : Funs) (s : Store) (a k : Nat) (l : LVal)
    (es : List Val) (n : Int)
    (ha : s[a]? = some (some (.arr es)))
    (hl : read s l = .ok (.int k))
    (hk : es[k]? = some (.int n))
    (hr : inRange (n + 1) = true) :
    invoke q funs (.unOp .preInc (.varIndex ⟨a, []⟩ _1)) [.lvalue l] s
      = (.ok (.lv ⟨a, [k]⟩), s.set a (some (.arr (es.set k (.int (n + 1)))))) := by
  have hlen := length_of_getElem? es k _ hk
  have h1 : rval s (.lv l) = .ok (.int k) := by simp [rval, hl]
  have h2 : subscript (.lv ⟨a, []⟩) (.int k) s = .ok (.lv ⟨a, [k]⟩) := by
    simp [subscript, toInt, read_cell s a _ ha, hlen]
  have h3 : stepBy 1 (.lv ⟨a, [k]⟩) s
      = (.ok (.int n, ⟨a, [k]⟩), s.set a (some (.arr (es.set k (.int (n + 1)))))) := by
    simp [stepBy, read_elem s a k es _ ha hk, mkInt, hr, write_elem s a k es _ _ ha hk]
  have h0 : baseOf s (.lv ⟨a, []⟩) = .ok (.lv ⟨a, []⟩) := by
    simp [baseOf, read_cell s a _ ha]
  simp [invoke, instantiates, _1, materialize, eval, andThen, still, getArg, h0, h1, h2, unary,
    Res.operand, is_expression, applyUn, h3]

theorem getElem?_bumpAt (xs : List Int) (k i : Nat) :
    (bumpAt xs k)[i]? = if i = k then (xs[i]?).map (· + 1) else xs[i]? := by
  unfold bumpAt
  by_cases hik : i = k
  · subst hik
    cases h : xs[i]? with
    | none => simp [h]
    | some x =>
      have := length_of_getElem? xs i _ h
      simp [this]
  · cases h : xs[k]? with
    | none => simp [hik]
    | some x => simp [hik, List.getElem?_set_ne (Ne.symm hik)]

theorem getElem?_foldl_bumpAt (ks : List Nat) (xs : List Int) (i : Nat) :
    (ks.foldl bumpAt xs)[i]? = (xs[i]?).map (· + (ks.count i : Int)) := by
  induction ks generalizing xs with
  | nil =>
    simp only [List.foldl_nil, List.count_nil]
    generalize xs[i]? = o
    cases o <;> simp
  | cons k ks ih =>
    simp only [List.foldl_cons, ih, getElem?_bumpAt, List.count_cons]
    by_cases hik : i = k
    · subst hik
      generalize xs[i]? = o
      cases o <;> simp
      omega
    · have : (k == i) = false := by simp [Ne.symm hik]
      simp [hik, this]

theorem foldl_bumpAt_perm (ks : List Nat) (xs : List Int)
    (h : ks.Perm (List.range xs.length)) : ks.foldl bumpAt xs = xs.map (· + 1) := by
  apply List.ext_getElem?
  intro i
  rw [getElem?_foldl_bumpAt]
  by_cases hi : i < xs.length
  · have hm : i ∈ ks := h.mem_iff.mpr (List.mem_range.mpr hi)
    have hnd : ks.Nodup := h.nodup_iff.mpr (List.nodup_range _)
    have hc : ks.count i = 1 := List.count_eq_one_of_mem hnd hm
    simp [hc, List.getElem?_map]
  · have : xs[i]? = none := List.getElem?_eq_none (by omega)
    simp [this, List.getElem?_map]

theorem for_each_preInc_index (q : Sequencing) (funs : Funs) (a : Nat) :
    ∀ (els : List LVal) (ks : List Nat) (cur : List Int) (s : Store),
      s[a]? = some (some (.arr (cur.map .int))) →
      List.Forall₂ (fun l k => read s l = .ok (.int (k : Nat)) ∧ l.loc ≠ a) els ks →
      ks.Nodup →
      (∀ k ∈ ks, ∃ x, cur[k]? = some x ∧ inRange (x + 1) = true) →
      for_each q funs (.unOp .preInc (.varIndex ⟨a, []⟩ _1)) els s
        = (.ok (), s.set a (some (.arr ((ks.foldl bumpAt cur).map .int))))
  | [], ks, cur, s, ha, hels, _, _ => by
    cases hels
    simp [for_each, set_eq_self_of_getElem? s a _ ha]
  | l :: els, ks, cur, s, ha, hels, hnd, hr => by
    cases hels with
    | @cons _ k _ ks hlk htl =>
      obtain ⟨x, hx, hxr⟩ := hr k (by simp)
      have hk : a < s.length := length_of_getElem? s a _ ha
      have hes : (cur.map Val.int)[k]? = some (.int x) := by simp [List.getElem?_map, hx]
      have hb : bumpAt cur k = cur.set k (x + 1) := by simp [bumpAt, hx]
      have hstep := invoke_preInc_index q funs s a k l (cur.map .int) x ha hlk.1 hes hxr
      have hmap : (cur.map Val.int).set k (.int (x + 1)) = (bumpAt cur k).map .int := by
        rw [hb, List.map_set]
      rw [hmap] at hstep
      have hnd' := List.nodup_cons.mp hnd
      have ha' : (s.set a (some (.arr ((bumpAt cur k).map .int))))[a]?
          = some (some (.arr ((bumpAt cur k).map .int))) := by simp [hk]
      have htl' : List.Forall₂ (fun l' k' =>
          read (s.set a (some (.arr ((bumpAt cur k).map .int)))) l' = .ok (.int (k' : Nat))
            ∧ l'.loc ≠ a) els ks := by
        refine htl.imp ?_
        intro l' k' h
        exact ⟨by rw [read_set_other _ _ _ _ h.2]; exact h.1, h.2⟩
      have hr' : ∀ k' ∈ ks, ∃ y, (bumpAt cur k)[k']? = some y ∧ inRange (y + 1) = true := by
        intro k' hk'
        have hne : k' ≠ k := fun h => hnd'.1 (h ▸ hk')
        obtain ⟨y, hy, hyr⟩ := hr k' (by simp [hk'])
        exact ⟨y, by rw [getElem?_bumpAt, if_neg hne]; exact hy, hyr⟩
      simp only [for_each]
      rw [hstep]
      simp only [andThen]
      rw [for_each_preInc_index q funs a els ks (bumpAt cur k) _ ha' htl' hnd'.2 hr']
      simp [List.set_set]

/-- C11 fails when the element is the largest `int`: with `arr == {INT_MAX}`,
`(++variable(arr)[_1])(0)` overflows, which is undefined; the element is not
increased by 1. -/
theorem C11_counterexample :
    invoke leftFirst noFuns (.unOp .preInc (.varIndex ⟨0, []⟩ _1)) [.lvalue ⟨1, []⟩]
        [some (.arr [.int 2147483647]), some (.int 0)]
      = (.error .undefined, [some (.arr [.int 2147483647]), some (.int 0)]) ∧
    read [some (.arr [.int 2147483647]), some (.int 0)] ⟨0, [0]⟩ = .ok (.int 2147483647) :=
  ⟨rfl, rfl⟩

/-- C11, amended: for an `int` array `arr` in the caller's storage and an
in-range index `k` with `arr[k] + 1` representable, `(++variable(arr)[_1])(k)`
increases `arr[k]` by exactly 1, leaves every other element and every other
cell unchanged and yields `arr[k]`, which then holds the new value; applied by
`for_each` to any permutation of all indices, with every `arr[i] + 1`
representable, it increases every element by exactly 1. -/
theorem C11_indexed_pre_increment (q : Sequencing) (funs : Funs) (s : Store) (a k : Nat)
    (xs : List Int) (l : LVal) (x : Int)
    (ha : s[a]? = some (some (.arr (xs.map .int))))
    (hl : read s l = .ok (.int (k : Nat)))
    (hk : xs[k]? = some x)
    (hr : inRange (x + 1) = true) :
    unary .preInc (.node (indexOp (.variable ⟨a, []⟩) (.node _1)))
      = some (.unOp .preInc (.varIndex ⟨a, []⟩ _1)) ∧
    invoke q funs (.unOp .preInc (.varIndex ⟨a, []⟩ _1)) [.lvalue l] s
      = (.ok (.lv ⟨a, [k]⟩), s.set a (some (.arr ((xs.set k (x + 1)).map .int)))) ∧
    read (s.set a (some (.arr ((xs.set k (x + 1)).map .int)))) ⟨a, [k]⟩ = .ok (.int (x + 1)) ∧
    (xs.set k (x + 1))[k]? = some (x + 1) ∧
    (∀ j, j ≠ k → (xs.set k (x + 1))[j]? = xs[j]?) ∧
    (∀ (els : List LVal) (ks : List Nat),
      List.Forall₂ (fun l' k' => read s l' = .ok (.int (k' : Nat)) ∧ l'.loc ≠ a) els ks →
      ks.Perm (List.range xs.length) →
      (∀ y ∈ xs, inRange (y + 1) = true) →
      for_each q funs (.unOp .preInc (.varIndex ⟨a, []⟩ _1)) els s
        = (.ok (), s.set a (some (.arr ((xs.map (· + 1)).map .int))))) := by
  have hlen : k < xs.length := length_of_getElem? xs k _ hk
  have has : a < s.length := length_of_getElem? s a _ ha
  have hes : (xs.map Val.int)[k]? = some (.int x) := by simp [List.getElem?_map, hk]
  refine ⟨rfl, ?_, ?_, by simp [hlen], ?_, ?_⟩
  · rw [invoke_preInc_index q funs s a k l (xs.map .int) x ha hl hes hr, List.map_set]
  · exact read_elem _ a k ((xs.set k (x + 1)).map .int) (.int (x + 1)) (by simp [has])
      (by simp [List.getElem?_map, hlen])
  · intro j hj
    simp [List.getElem?_set_ne (Ne.symm hj)]
  · intro els ks hels hperm hall
    have hnd : ks.Nodup := hperm.nodup_iff.mpr (List.nodup_range _)
    have hr' : ∀ k' ∈ ks, ∃ y, xs[k']? = some y ∧ inRange (y + 1) = true := by
      intro k' hk'
      have hlt : k' < xs.length := List.mem_range.mp (hperm.mem_iff.mp hk')
      exact ⟨xs[k'], List.getElem?_eq_getElem hlt, hall _ (List.getElem_mem _)⟩
    rw [for_each_preInc_index q funs a els ks xs s ha hels hnd hr', foldl_bumpAt_perm ks xs hperm]

/-- C11 on the test case: `arr = {1,2,3,4,5}` and indices `{4,3,2,1,0}` give
`{2,3,4,5,6}`. -/
theorem C11_indexed_pre_increment_witness :
    ([some (.arr [.int 1, .int 2, .int 3, .int 4, .int 5]),
        some (.arr [.int 4, .int 3, .int 2, .int 1, .int 0])] : Store)[0]?
      = some (some (.arr (([1, 2, 3, 4, 5] : List Int).map .int))) ∧
    ([1, 2, 3, 4, 5] : List Int)[4]? = some 5 ∧
    inRange (5 + 1) = true ∧
    [4, 3, 2, 1, 0].Perm (List.range ([1, 2, 3, 4, 5] : List Int).length) ∧
    invoke leftFirst noFuns (.unOp .preInc (.varIndex ⟨0, []⟩ _1)) [.lvalue ⟨1, [0]⟩]
        [some (.arr [.int 1, .int 2, .int 3, .int 4, .int 5]),
          some (.arr [.int 4, .int 3, .int 2, .int 1, .int 0])]
      = (.ok (.lv ⟨0, [4]⟩),
          [some (.arr [.int 1, .int 2, .int 3, .int 4, .int 6]),
            some (.arr [.int 4, .int 3, .int 2, .int 1, .int 0])]) ∧
    for_each leftFirst noFuns (.unOp .preInc (.varIndex ⟨0, []⟩ _1))
        [⟨1, [0]⟩, ⟨1, [1]⟩, ⟨1, [2]⟩, ⟨1, [3]⟩, ⟨1, [4]⟩]
        [some (.arr [.int 1, .int 2, .int 3, .int 4, .int 5]),
          some (.arr [.int 4, .int 3, .int 2, .int 1, .int 0])]
      = (.ok (),
          [some (.arr [.int 2, .int 3, .int 4, .int 5, .int 6]),
            some (.arr [.int 4, .int 3, .int 2, .int 1, .int 0])]) :=
  ⟨rfl, rfl, rfl, by decide,
    (C11_indexed_pre_increment leftFirst noFuns
      [some (.arr [.int 1, .int 2, .int 3, .int 4, .int 5]),
        some (.arr [.int 4, .int 3, .int 2, .int 1, .int 0])]
      0 4 [1, 2, 3, 4, 5] ⟨1, [0]⟩ 5 rfl rfl rfl rfl).2.1,
    (C11_indexed_pre_increment leftFirst noFuns
      [some (.arr [.int 1, .int 2, .int 3, .int 4, .int 5]),
        some (.arr [.int 4, .int 3, .int 2, .int 1, .int 0])]
      0 4 [1, 2, 3, 4, 5] ⟨1, [0]⟩ 5 rfl rfl rfl rfl).2.2.2.2.2
      [⟨1, [0]⟩, ⟨1, [1]⟩, ⟨1, [2]⟩, ⟨1, [3]⟩, ⟨1, [4]⟩] [4, 3, 2, 1, 0]
      (.cons ⟨rfl, by decide⟩ (.cons ⟨rfl, by decide⟩ (.cons ⟨rfl, by decide⟩
        (.cons ⟨rfl, by decide⟩ (.cons ⟨rfl, by decide⟩ .nil)))))
      (by decide) (by decide)⟩

theorem ptrAdd_elem (a k : Nat) (j : Nat) :
    ptrAdd a [k] (j : Int) = .ok (.ptr a [k + j]) := by
  have h : (0 : Int) ≤ (k : Int) + (j : Int) := by omega
  have h2 : ((k : Int) + (j : Int)).toNat = k + j := by omega
  simp [ptrAdd, h, h2]

/-- The tree `*(_1 + 1)` on a pointer to element `k` of the array in cell `a`. -/
theorem invokeValue_deref_next (q : Sequencing) (funs : Funs) (s : Store) (a k : Nat)
    (es : List Val) (v : Val)
    (ha : s[a]? = some (some (.arr es))) (hv : es[k + 1]? = some v) :
    invokeValue q funs (.unOp .deref (.binOp .add _1 (.constant (.int 1))))
        [.rvalue (.ptr a [k])] s
      = (.ok v, s ++ [none]) := by
  have hk := length_of_getElem? s a _ ha
  have h1 : (s ++ [some (.ptr a [k])] : Store)[s.length]? = some (some (.ptr a [k])) := by
    rw [getElem?_append_length]; rfl
  have h2 : rval (s ++ [some (.ptr a [k])]) (.lv ⟨s.length, []⟩) = .ok (.ptr a [k]) := by
    simp [rval, read_cell _ _ _ h1]
  have h3 : read (s ++ [some (.ptr a [k])]) ⟨a, [k + 1]⟩ = .ok v := by
    simp [read, List.getElem?_append_left hk, ha, getPath, children, hv]
  have h4 : applyBin .add (.ptr a [k]) (.int 1) = .ok (.ptr a [k + 1]) := by
    simpa [applyBin, toInt] using ptrAdd_elem a k 1
  have h5 : valueOp .add (.ptr a [k]) (.int 1) (s ++ [some (.ptr a [k])])
      = (.ok (.rv (.ptr a [k + 1])), s ++ [some (.ptr a [k])]) := by
    simp only [valueOp, h4]
  have h6 : ∀ t : Store, rval t (.rv (.int 1)) = .ok (.int 1) := fun _ => rfl
  have h7 : applyUn .deref (.rv (.ptr a [k + 1])) (s ++ [some (.ptr a [k])])
      = (.ok (.lv ⟨a, [k + 1]⟩), s ++ [some (.ptr a [k])]) := rfl
  cases hq : q.operandsLeftFirst <;>
  simp [invokeValue, invoke, instantiates, _1, materialize, eval, yieldsNode, isNodeArg,
    leftOperandFirst, BinOp.base, andThen, still, getArg, h1, h2, h6, h5, unary, Res.operand,
    is_expression, h7, load, h3, hq, endFullExpression]

/-- The tree `*(_1 + 1)` on the array in cell `a` itself, which decays to a
pointer to its first element. -/
theorem invokeValue_deref_next_array (q : Sequencing) (funs : Funs) (s : Store) (a : Nat)
    (es : List Val) (w : Val)
    (ha : s[a]? = some (some (.arr es))) (hw : es[1]? = some w) :
    invokeValue q funs (.unOp .deref (.binOp .add _1 (.constant (.int 1))))
        [.lvalue ⟨a, []⟩] s
      = (.ok w, s) := by
  have h2 : rval s (.lv ⟨a, []⟩) = .ok (.ptr a [0]) := by
    simp [rval, read_cell _ _ _ ha]
  have h3 : read s ⟨a, [0 + 1]⟩ = .ok w := by
    simp [read, ha, getPath, children, hw]
  have h4 : applyBin .add (.ptr a [0]) (.int 1) = .ok (.ptr a [0 + 1]) := by
    simpa [applyBin, toInt] using ptrAdd_elem a 0 1
  have h5 : valueOp .add (.ptr a [0]) (.int 1) s = (.ok (.rv (.ptr a [0 + 1])), s) := by
    simp only [valueOp, h4]
  have h6 : ∀ t : Store, rval t (.rv (.int 1)) = .ok (.int 1) := fun _ => rfl
  have h7 : applyUn .deref (.rv (.ptr a [0 + 1])) s = (.ok (.lv ⟨a, [0 + 1]⟩), s) := rfl
  cases hq : q.operandsLeftFirst <;>
  simp [invokeValue, invoke, instantiates, _1, materialize, eval, yieldsNode, isNodeArg,
    leftOperandFirst, BinOp.base, andThen, still, getArg, h2, h6, h5, unary, Res.operand,
    is_expression, h7, load, h3, hq, endFullExpression]

/-- C12: pointer offset.  With a pointer modelled as a position `k` in the
array `arr`, and `k + 1` in range, `(*(_1 + 1))(p)` returns `arr[k + 1]`;
shifting the pointer by `j` (with `k + j + 1` in range) returns
`arr[k + j + 1]`; and handing the array itself, which decays to position 0,
returns `arr[1]`. -/
theorem C12_pointer_offset (q : Sequencing) (funs : Funs) (s : Store) (a k : Nat)
    (es : List Val) (v : Val)
    (ha : s[a]? = some (some (.arr es))) (hv : es[k + 1]? = some v) :
    binary .add (.node _1) (.rvalue (.int 1)) = some (.binOp .add _1 (.constant (.int 1))) ∧
    unary .deref (.node (.binOp .add _1 (.constant (.int 1))))
      = some (.unOp .deref (.binOp .add _1 (.constant (.int 1)))) ∧
    invokeValue q funs (.unOp .deref (.binOp .add _1 (.constant (.int 1))))
        [.rvalue (.ptr a [k])] s
      = (.ok v, s ++ [none]) ∧
    (∀ (j : Nat) (w : Val), es[k + j + 1]? = some w →
      ptrAdd a [k] (j : Int) = .ok (.ptr a [k + j]) ∧
      invokeValue q funs (.unOp .deref (.binOp .add _1 (.constant (.int 1))))
          [.rvalue (.ptr a [k + j])] s
        = (.ok w, s ++ [none])) ∧
    (∀ w : Val, es[1]? = some w →
      invokeValue q funs (.unOp .deref (.binOp .add _1 (.constant (.int 1))))
          [.lvalue ⟨a, []⟩] s
        = (.ok w, s)) :=
  ⟨rfl, rfl, invokeValue_deref_next q funs s a k es v ha hv,
    fun j w hw => ⟨ptrAdd_elem a k j, invokeValue_deref_next q funs s a (k + j) es w ha hw⟩,
    fun w hw => invokeValue_deref_next_array q funs s a es w ha hw⟩

/-- C12 on the test case: `arr = {1,2,3,4,5}`, positions 0..3 return 2, 3, 4, 5. -/
theorem C12_pointer_offset_witness :
    ([some (.arr [.int 1, .int 2, .int 3, .int 4, .int 5])] : Store)[0]?
      = some (some (.arr [.int 1, .int 2, .int 3, .int 4, .int 5])) ∧
    ([.int 1, .int 2, .int 3, .int 4, .int 5] : List Val)[0 + 1]? = some (.int 2) ∧
    invokeValue leftFirst noFuns (.unOp .deref (.binOp .add _1 (.constant (.int 1))))
        [.lvalue ⟨0, []⟩] [some (.arr [.int 1, .int 2, .int 3, .int 4, .int 5])]
      = (.ok (.int 2), [some (.arr [.int 1, .int 2, .int 3, .int 4, .int 5])]) ∧
    invokeValue leftFirst noFuns (.unOp .deref (.binOp .add _1 (.constant (.int 1))))
        [.rvalue (.ptr 0 [0 + 1])] [some (.arr [.int 1, .int 2, .int 3, .int 4, .int 5])]
      = (.ok (.int 3), [some (.arr [.int 1, .int 2, .int 3, .int 4, .int 5]), none]) ∧
    invokeValue leftFirst noFuns (.unOp .deref (.binOp .add _1 (.constant (.int 1))))
        [.rvalue (.ptr 0 [0 + 2])] [some (.arr [.int 1, .int 2, .int 3, .int 4, .int 5])]
      = (.ok (.int 4), [some (.arr [.int 1, .int 2, .int 3, .int 4, .int 5]), none]) ∧
    invokeValue leftFirst noFuns (.unOp .deref (.binOp .add _1 (.constant (.int 1))))
        [.rvalue (.ptr 0 [0 + 3])] [some (.arr [.int 1, .int 2, .int 3, .int 4, .int 5])]
      = (.ok (.int 5), [some (.arr [.int 1, .int 2, .int 3, .int 4, .int 5]), none]) :=
  ⟨rfl, rfl,
    (C12_pointer_offset leftFirst noFuns [some (.arr [.int 1, .int 2, .int 3, .int 4, .int 5])]
      0 0 [.int 1, .int 2, .int 3, .int 4, .int 5] (.int 2) rfl rfl).2.2.2.2 (.int 2) rfl,
    ((C12_pointer_offset leftFirst noFuns [some (.arr [.int 1, .int 2, .int 3, .int 4, .int 5])]
      0 0 [.int 1, .int 2, .int 3, .int 4, .int 5] (.int 2) rfl rfl).2.2.2.1 1 (.int 3) rfl).2,
    ((C12_pointer_offset leftFirst noFuns [some (.arr [.int 1, .int 2, .int 3, .int 4, .int 5])]
      0 0 [.int 1, .int 2, .int 3, .int 4, .int 5] (.int 2) rfl rfl).2.2.2.1 2 (.int 4) rfl).2,
    ((C12_pointer_offset leftFirst noFuns [some (.arr [.int 1, .int 2, .int 3, .int 4, .int 5])]
      0 0 [.int 1, .int 2, .int 3, .int 4, .int 5] (.int 2) rfl rfl).2.2.2.1 3 (.int 5) rfl).2⟩

/-- C13: coercion is a pass-through on nodes, hence idempotent.  `expressify`
returns every node as it is, and coercing the result of a coercion gives that
result again; the two trees behave alike on every call. -/
theorem C13_expressify_idempotent (q : Sequencing) (funs : Funs) :
    (∀ n : Node, expressify (.node n) = n) ∧
    (∀ o : Operand, is_expression (.node (expressify o)) = true ∧
      expressify (.node (expressify o)) = expressify o) ∧
    (∀ (o : Operand) (args : List Operand) (s : Store),
      invoke q funs (expressify (.node (expressify o))) args s
        = invoke q funs (expressify o) args s) :=
  ⟨fun _ => rfl, fun _ => ⟨rfl, rfl⟩, fun _ _ _ => rfl⟩

/-- C14: placeholder selection.  For `k` in 1..7 and a call with at least `k`
arguments, `_k` is `placeholder<k-1>` and yields the `k`-th argument itself: the
caller's lvalue, the temporary that holds a value passed by value, or the
expression object.  Assigning through it writes the caller's object and
changes no object that does not overlap it.  The result mentions no other
argument. -/
theorem C14_placeholder_selection (q : Sequencing) (funs : Funs) (k : Nat)
    (args : List Operand) (s : Store)
    (hk1 : 1 ≤ k) (hk7 : k ≤ 7) (hn : k ≤ args.length) :
    [_1, _2, _3, _4, _5, _6, _7][k - 1]? = some (.placeholder (k - 1)) ∧
    (∀ l : LVal, args[k - 1]? = some (.lvalue l) →
      invoke q funs (.placeholder (k - 1)) args s = (.ok (.lv l), (materialize args s).2)) ∧
    (∀ v : Val, args[k - 1]? = some (.rvalue v) →
      ∃ c, s.length ≤ c ∧ (materialize args s).2[c]? = some (some v) ∧
        invoke q funs (.placeholder (k - 1)) args s
          = (.ok (.lv ⟨c, []⟩), (materialize args s).2)) ∧
    (∀ n : Node, args[k - 1]? = some (.node n) →
      invoke q funs (.placeholder (k - 1)) args s = (.ok (.node n), (materialize args s).2)) ∧
    (∀ (l : LVal) (old w w' : Val), args[k - 1]? = some (.lvalue l) →
      read (materialize args s).2 l = .ok old → convertTo old w = .ok w' →
      ∃ s', write (materialize args s).2 l w' = .ok s' ∧
        invoke q funs (.phAssign (k - 1) (.constant w)) args s = (.ok (.lv l), s') ∧
        read s' l = .ok w' ∧
        ∀ l' : LVal, l.disjoint l' → read s' l' = read (materialize args s).2 l') := by
  have hlt : k - 1 < args.length := by omega
  have hinst : instantiates (.placeholder (k - 1)) args.length = true := by
    simp [instantiates, hlt]
  refine ⟨?_, ?_, ?_, ?_, ?_⟩
  · have : k = 1 ∨ k = 2 ∨ k = 3 ∨ k = 4 ∨ k = 5 ∨ k = 6 ∨ k = 7 := by omega
    rcases this with h | h | h | h | h | h | h <;> subst h <;> rfl
  · intro l hl
    rw [invoke_of_instantiates q funs _ args s hinst]
    simp [eval, still, getArg, materialize_lvalue args s _ l hl]
  · intro v hv
    obtain ⟨c, hc, h1, h2⟩ := materialize_rvalue args s _ v hv
    refine ⟨c, hc, h2, ?_⟩
    rw [invoke_of_instantiates q funs _ args s hinst]
    simp [eval, still, getArg, h1]
  · intro n hn'
    rw [invoke_of_instantiates q funs _ args s hinst]
    simp [eval, still, getArg, materialize_node args s _ n hn']
  · intro l old w w' hl hold hc
    obtain ⟨s', hs'⟩ := write_of_read _ l old w' hold
    refine ⟨s', hs', ?_, read_write_same _ _ _ _ hs', fun l' hd =>
      read_write_apart _ _ _ _ _ hs' hd⟩
    rw [invoke_of_instantiates q funs _ args s (by simp [instantiates, hlt])]
    simp [eval, andThen, still, getArg, materialize_lvalue args s _ l hl, load, assignTo, hold,
      hc, hs']

/-- C14 at `_2(10, x, 30)`: the result is the caller's `x`. -/
theorem C14_placeholder_selection_witness :
    1 ≤ 2 ∧ 2 ≤ 7 ∧
    2 ≤ [Operand.rvalue (.int 10), .lvalue ⟨0, []⟩, .rvalue (.int 30)].length ∧
    invoke leftFirst noFuns _2 [.rvalue (.int 10), .lvalue ⟨0, []⟩, .rvalue (.int 30)]
        [some (.int 20)]
      = (.ok (.lv ⟨0, []⟩), [some (.int 20), some (.int 10), some (.int 30)]) :=
  ⟨by decide, by decide, by decide,
    (C14_placeholder_selection leftFirst noFuns 2
      [.rvalue (.int 10), .lvalue ⟨0, []⟩, .rvalue (.int 30)] [some (.int 20)]
      (by decide) (by decide) (by decide)).2.1 ⟨0, []⟩ rfl⟩

theorem evalPack_sideEffectFree (q : Sequencing) (funs : Funs) (Ps : List Node) (rs : List Res)
    (args : List ArgRef) (s : Store)
    (h : List.Forall₂ (fun p r => eval q funs p args s = (.ok r, s)) Ps rs) :
    evalPack q funs Ps args s = (.ok rs, s) := by
  induction h with
  | nil => rfl
  | cons hp _ ih =>
    cases hq : q.argumentsLeftFirst <;> simp [evalPack, hq, hp, ih, andThen]

/-- C15: `bind`.  When the callable sub-expression `F` and the parameter
sub-expressions `P1..Pn` are free of side effects on the arguments of the call,
`bind(F, P1, ..., Pn)(args...)` returns the result of calling the callable that
`F(args...)` yields on the values of `P1(args...)`, ..., `Pn(args...)`, every
sub-expression receiving the same arguments, whichever order the arguments of
`std::invoke` are evaluated in.  For a plain function `f`,
`bind(f, _2, _1)(a, b)` is `f(b, a)`. -/
theorem C15_bind (q : Sequencing) (funs : Funs) (F : Node) (Ps : List Node)
    (args : List Operand) (s : Store) (fr : Res) (f : Nat) (rs : List Res) (vs : List Val)
    (hI : instantiates (.bind F Ps) args.length = true)
    (hF : eval q funs F (materialize args s).1 (materialize args s).2
      = (.ok fr, (materialize args s).2))
    (hP : List.Forall₂ (fun p r => eval q funs p (materialize args s).1 (materialize args s).2
      = (.ok r, (materialize args s).2)) Ps rs)
    (hf : load (materialize args s).2 fr = .ok (.fn f))
    (hv : loadAll (materialize args s).2 rs = .ok vs) :
    (∀ params : List Operand,
      bind (.node F) params = .bind F (params.map expressify)) ∧
    invoke q funs (.bind F Ps) args s
      = ((callFn funs f vs).map .rv, (materialize args s).2) ∧
    (∀ (a b : Val) (c g : Nat) (t : Store), t[c]? = some (some (.fn g)) →
      bind (.lvalue ⟨c, []⟩) [.node _2, .node _1] = .bind (.variable ⟨c, []⟩) [_2, _1] ∧
      invokeValue q funs (.bind (.variable ⟨c, []⟩) [_2, _1]) [.rvalue a, .rvalue b] t
        = (callFn funs g [b, a], t ++ [none, none])) := by
  refine ⟨fun _ => rfl, ?_, ?_⟩
  · rw [invoke_of_instantiates q funs _ args s hI]
    have hp := evalPack_sideEffectFree q funs Ps rs _ _ hP
    cases fr with
    | node n => simp [load] at hf
    | lv l =>
      cases hq : q.argumentsLeftFirst <;> cases hc : callFn funs f vs <;>
        simp [eval, hq, hF, hp, andThen, still, hf, hv, hc, Except.map]
    | rv v =>
      cases hq : q.argumentsLeftFirst <;> cases hc : callFn funs f vs <;>
        simp [eval, hq, hF, hp, andThen, still, hf, hv, hc, Except.map]
  · intro a b c g t ht
    refine ⟨rfl, ?_⟩
    have hk : c < t.length := by
      rcases List.getElem?_eq_some_iff.mp ht with ⟨hk, _⟩
      exact hk
    have h0 : (t ++ [some a, some b] : Store)[c]? = some (some (.fn g)) := by
      rw [List.getElem?_append_left hk]; exact ht
    have h1 : (t ++ [some a, some b] : Store)[t.length]? = some (some a) := by
      rw [getElem?_append_length]; rfl
    have h2 : (t ++ [some a, some b] : Store)[t.length + 1]? = some (some b) := by
      rw [getElem?_append_add]; rfl
    have h4 : List.take t.length (t ++ [some a, some b] : Store) = t := by simp
    cases hq : q.argumentsLeftFirst <;> cases hc : callFn funs g [b, a] <;>
      simp [invokeValue, invoke, instantiates, instantiatesAll, _1, _2, materialize, eval,
        evalPack, andThen, still, getArg, hq, load, loadAll, read_cell _ _ _ h0,
        read_cell _ _ _ h1, read_cell _ _ _ h2, hc, h4, endFullExpression]

/-- C15 at `bind(f, _2, _1)(3, 4)` for `f(x, y) = x - y`: the result is
`f(4, 3) = 1`. -/
theorem C15_bind_witness :
    instantiates (.bind (.variable ⟨0, []⟩) [_2, _1])
      [Operand.rvalue (.int 3), .rvalue (.int 4)].length = true ∧
    invoke leftFirst minusFuns (.bind (.variable ⟨0, []⟩) [_2, _1])
        [.rvalue (.int 3), .rvalue (.int 4)] [some (.fn 0)]
      = (.ok (.rv (.int 1)), [some (.fn 0), some (.int 3), some (.int 4)]) :=
  ⟨rfl,
    (C15_bind leftFirst minusFuns (.variable ⟨0, []⟩) [_2, _1]
      [.rvalue (.int 3), .rvalue (.int 4)] [some (.fn 0)] (.lv ⟨0, []⟩) 0
      [.lv ⟨2, []⟩, .lv ⟨1, []⟩] [.int 4, .int 3] rfl rfl
      (.cons rfl (.cons rfl .nil)) rfl rfl).2.1⟩

/-- C17: coercion of the parameters of the member-function combinator.  The
bound call `(_I->*member)(p)` goes through `expression::operator()`, where the
parameter is a named reference; a temporary `p` is therefore wrapped in a
`variable` on the cell of the temporary, not in the `constant` that
`expressify` gives a temporary and that `bind` and the binary combinators
give the same operand.  Every parameter that is not a node ends up as a
`variable`. -/
theorem C17_mem_fun_parameter_is_variable (q : Sequencing) (funs : Funs) (I member : Nat)
    (F : Node) (op : BinOp) (v : Val) (s : Store) :
    invoke q funs (.memFun I member) [.rvalue v] s
      = (.ok (.node (.memCall I member [.variable ⟨s.length, []⟩])), s ++ [some v]) ∧
    (Node.memCall I member [.variable ⟨s.length, []⟩]
      ≠ .memCall I member [expressify (.rvalue v)]) ∧
    expressify (.rvalue v) = .constant v ∧
    bind (.node F) [.rvalue v] = .bind F [.constant v] ∧
    binary op (.node F) (.rvalue v) = some (.binOp op F (.constant v)) ∧
    (∀ args : List Operand,
      (invoke q funs (.memFun I member) args s).1
        = .ok (.node (.memCall I member
            ((materialize args s).1.map fun a => expressify a.operand)))) ∧
    (∀ l : LVal, is_expression (ArgRef.obj l).operand = false ∧
      expressify (ArgRef.obj l).operand = .variable l) := by
  refine ⟨?_, ?_, rfl, rfl, rfl, ?_, ?_⟩
  · simp [invoke, instantiates, materialize, eval, ArgRef.operand, expressify]
  · simp [expressify]
  · intro args
    simp [invoke, instantiates, eval]
  · intro l
    exact ⟨rfl, rfl⟩

/-- Increment and decrement of an `int` cell. -/
theorem stepBy_cell (s : Store) (x : Nat) (i d : Int) (hx : s[x]? = some (some (.int i)))
    (hr : inRange (i + d) = true) :
    stepBy d (.lv ⟨x, []⟩) s = (.ok (.int i, ⟨x, []⟩), s.set x (some (.int (i + d)))) := by
  simp [stepBy, read_cell s x _ hx, mkInt, hr, write_cell s x _ _ hx]

/-- C18: increment and decrement written before or after the operand act when
the tree is invoked.  Building the four trees involves no store.  With `i + 1`
representable, `(_1++)(i)` returns the old value and leaves `i` increased by 1,
and `(++_1)(i)` returns `i` itself, which then holds the new value, also
increased by 1 (once, not twice); dually for `--` with `i - 1` representable. -/
theorem C18_pre_post_increment (q : Sequencing) (funs : Funs) (s : Store) (x : Nat) (i : Int)
    (hx : s[x]? = some (some (.int i))) :
    unary .preInc (.node _1) = some (.unOp .preInc _1) ∧
    unary .preDec (.node _1) = some (.unOp .preDec _1) ∧
    postfixOp .postInc (.node _1) = some (.postOp .postInc _1) ∧
    postfixOp .postDec (.node _1) = some (.postOp .postDec _1) ∧
    (inRange (i + 1) = true →
      invoke q funs (.postOp .postInc _1) [.lvalue ⟨x, []⟩] s
        = (.ok (.rv (.int i)), s.set x (some (.int (i + 1)))) ∧
      invoke q funs (.unOp .preInc _1) [.lvalue ⟨x, []⟩] s
        = (.ok (.lv ⟨x, []⟩), s.set x (some (.int (i + 1)))) ∧
      read (s.set x (some (.int (i + 1)))) ⟨x, []⟩ = .ok (.int (i + 1))) ∧
    (inRange (i - 1) = true →
      invoke q funs (.postOp .postDec _1) [.lvalue ⟨x, []⟩] s
        = (.ok (.rv (.int i)), s.set x (some (.int (i - 1)))) ∧
      invoke q funs (.unOp .preDec _1) [.lvalue ⟨x, []⟩] s
        = (.ok (.lv ⟨x, []⟩), s.set x (some (.int (i - 1)))) ∧
      read (s.set x (some (.int (i - 1)))) ⟨x, []⟩ = .ok (.int (i - 1))) := by
  have hk := length_of_getElem? s x _ hx
  refine ⟨rfl, rfl, rfl, rfl, ?_, ?_⟩
  · intro hr
    refine ⟨?_, ?_, ?_⟩
    · simp [invoke, instantiates, _1, materialize, eval, andThen, still, getArg, postfixOp,
        Res.operand, is_expression, applyPost, stepBy_cell s x i 1 hx hr]
    · simp [invoke, instantiates, _1, materialize, eval, andThen, still, getArg, unary,
        Res.operand, is_expression, applyUn, stepBy_cell s x i 1 hx hr]
    · exact read_cell _ _ _ (by simp [hk])
  · intro hr
    have hr' : inRange (i + -1) = true := by simpa [Int.sub_eq_add_neg] using hr
    have hs := stepBy_cell s x i (-1) hx hr'
    rw [← Int.sub_eq_add_neg] at hs
    refine ⟨?_, ?_, ?_⟩
    · simp [invoke, instantiates, _1, materialize, eval, andThen, still, getArg, postfixOp,
        Res.operand, is_expression, applyPost, hs]
    · simp [invoke, instantiates, _1, materialize, eval, andThen, still, getArg, unary,
        Res.operand, is_expression, applyUn, hs]
    · exact read_cell _ _ _ (by simp [hk])

/-- C18 at `i == 41`. -/
theorem C18_pre_post_increment_witness :
    ([some (.int 41)] : Store)[0]? = some (some (.int 41)) ∧
    invoke leftFirst noFuns (.postOp .postInc _1) [.lvalue ⟨0, []⟩] [some (.int 41)]
      = (.ok (.rv (.int 41)), [some (.int 42)]) ∧
    invoke leftFirst noFuns (.unOp .preInc _1) [.lvalue ⟨0, []⟩] [some (.int 41)]
      = (.ok (.lv ⟨0, []⟩), [some (.int 42)]) ∧
    invoke leftFirst noFuns (.postOp .postDec _1) [.lvalue ⟨0, []⟩] [some (.int 41)]
      = (.ok (.rv (.int 41)), [some (.int 40)]) ∧
    invoke leftFirst noFuns (.unOp .preDec _1) [.lvalue ⟨0, []⟩] [some (.int 41)]
      = (.ok (.lv ⟨0, []⟩), [some (.int 40)]) :=
  ⟨rfl,
    ((C18_pre_post_increment leftFirst noFuns [some (.int 41)] 0 41 rfl).2.2.2.2.1 rfl).1,
    ((C18_pre_post_increment leftFirst noFuns [some (.int 41)] 0 41 rfl).2.2.2.2.1 rfl).2.1,
    ((C18_pre_post_increment leftFirst noFuns [some (.int 41)] 0 41 rfl).2.2.2.2.2 rfl).1,
    ((C18_pre_post_increment leftFirst noFuns [some (.int 41)] 0 41 rfl).2.2.2.2.2 rfl).2.1⟩

/-- C19 fails in two ways.  When an operand call yields an expression object
the comma is the operator function of the header: `(++_1 , _2)(i, _1)` with
`i == 0` does not return what `_2` returns there (the argument `_1`) but a new
tree that holds `i` and `_1`.  And the example has no overflow proviso:
`(++_1 , _1)(i)` with `i` the largest `int` is undefined, it does not return
`i + 1`. -/
theorem C19_counterexample :
    unary .preInc (.node _1) = some (.unOp .preInc _1) ∧
    binary .comma (.node (.unOp .preInc _1)) (.node _2)
      = some (.binOp .comma (.unOp .preInc _1) _2) ∧
    invoke leftFirst noFuns (.unOp .preInc _1) [.lvalue ⟨0, []⟩, .node _1] [some (.int 0)]
      = (.ok (.lv ⟨0, []⟩), [some (.int 1)]) ∧
    eval leftFirst noFuns _2 [.obj ⟨0, []⟩, .node _1] [some (.int 1)]
      = (.ok (.node _1), [some (.int 1)]) ∧
    invoke leftFirst noFuns (.binOp .comma (.unOp .preInc _1) _2) [.lvalue ⟨0, []⟩, .node _1]
        [some (.int 0)]
      = (.ok (.node (.binOp .comma (.variable ⟨0, []⟩) _1)), [some (.int 1)]) ∧
    invoke leftFirst noFuns (.binOp .comma (.unOp .preInc _1) _2) [.lvalue ⟨0, []⟩, .node _1]
        [some (.int 0)]
      ≠ eval leftFirst noFuns _2 [.obj ⟨0, []⟩, .node _1] [some (.int 1)] ∧
    binary .comma (.node (.unOp .preInc _1)) (.node _1)
      = some (.binOp .comma (.unOp .preInc _1) _1) ∧
    invoke leftFirst noFuns (.binOp .comma (.unOp .preInc _1) _1) [.lvalue ⟨0, []⟩]
        [some (.int 2147483647)]
      = (.error .undefined, [some (.int 2147483647)]) := by
  refine ⟨rfl, rfl, rfl, rfl, rfl, ?_, rfl, rfl⟩
  intro h
  have h1 : invoke leftFirst noFuns (.binOp .comma (.unOp .preInc _1) _2)
      [.lvalue ⟨0, []⟩, .node _1] [some (.int 0)]
      = (.ok (.node (.binOp .comma (.variable ⟨0, []⟩) _1)), [some (.int 1)]) := rfl
  have h2 : eval leftFirst noFuns _2 [.obj ⟨0, []⟩, .node _1] [some (.int 1)]
      = (.ok (.node _1), [some (.int 1)]) := rfl
  rw [h1, h2] at h
  simp [_1] at h

/-- C19, amended: the comma combinator, for sub-trees `L` and `R` none of whose
calls yields an expression object.  Whatever result `L` yields, `(L , R)`
invokes `R` on the store `L` left and returns what `R` returns there: `L` runs
first, its result is dropped, and there is no short circuit.  With `i + 1`
representable, `(++_1 , _1)(i)` returns `i`, which then holds `i + 1`. -/
theorem C19_comma (q : Sequencing) (funs : Funs) (L R : Node) (args : List Operand)
    (s s' : Store) (l : Res)
    (hR : instantiates R args.length = true)
    (hLn : yieldsNode L (materialize args s).1 = false)
    (hRn : yieldsNode R (materialize args s).1 = false)
    (hL : invoke q funs L args s = (.ok l, s')) :
    binary .comma (.node L) (.node R) = some (.binOp .comma L R) ∧
    invoke q funs (.binOp .comma L R) args s = eval q funs R (materialize args s).1 s' ∧
    unary .preInc (.node _1) = some (.unOp .preInc _1) ∧
    binary .comma (.node (.unOp .preInc _1)) (.node _1)
      = some (.binOp .comma (.unOp .preInc _1) _1) ∧
    (∀ (t : Store) (x : Nat) (i : Int), t[x]? = some (some (.int i)) →
      inRange (i + 1) = true →
      invoke q funs (.binOp .comma (.unOp .preInc _1) _1) [.lvalue ⟨x, []⟩] t
        = (.ok (.lv ⟨x, []⟩), t.set x (some (.int (i + 1)))) ∧
      read (t.set x (some (.int (i + 1)))) ⟨x, []⟩ = .ok (.int (i + 1))) := by
  have hLi := instantiates_of_invoke q funs L args s s' l hL
  rw [invoke_of_instantiates q funs L args s hLi] at hL
  rw [invoke_of_instantiates q funs _ args s (by simp [instantiates, hLi, hR])]
  refine ⟨rfl, by simp [eval, hLn, hRn, hL, andThen], rfl, rfl, ?_⟩
  intro t x i hx hr
  have hk := length_of_getElem? t x _ hx
  refine ⟨?_, read_cell _ _ _ (by simp [hk])⟩
  simp [invoke, instantiates, _1, materialize, eval, yieldsNode, isNodeArg, andThen, still,
    getArg, unary, Res.operand, is_expression, applyUn, stepBy_cell t x i 1 hx hr]

/-- C19 at `(++_1 , _1)(i)` with `i == 0`. -/
theorem C19_comma_witness :
    instantiates _1 1 = true ∧
    yieldsNode (.unOp .preInc _1) (materialize [.lvalue ⟨0, []⟩] [some (.int 0)]).1 = false ∧
    yieldsNode _1 (materialize [.lvalue ⟨0, []⟩] [some (.int 0)]).1 = false ∧
    invoke leftFirst noFuns (.unOp .preInc _1) [.lvalue ⟨0, []⟩] [some (.int 0)]
      = (.ok (.lv ⟨0, []⟩), [some (.int 1)]) ∧
    invoke leftFirst noFuns (.binOp .comma (.unOp .preInc _1) _1) [.lvalue ⟨0, []⟩]
        [some (.int 0)]
      = eval leftFirst noFuns _1 [.obj ⟨0, []⟩] [some (.int 1)] ∧
    eval leftFirst noFuns _1 [.obj ⟨0, []⟩] [some (.int 1)]
      = (.ok (.lv ⟨0, []⟩), [some (.int 1)]) :=
  ⟨rfl, rfl, rfl, rfl,
    (C19_comma leftFirst noFuns (.unOp .preInc _1) _1 [.lvalue ⟨0, []⟩] [some (.int 0)] _ _
      rfl rfl rfl rfl).2.1, rfl⟩

/-- C20: the capturing leaves ignore the arguments of the call.  A `variable`
on live storage `x` yields `x`, hence the current content of `x`, for every
argument list, the empty one included; a `constant` holding `v` yields `v` for
every argument list in every store, so also after the object it was built
from has changed. -/
theorem C20_leaves_ignore_arguments (q : Sequencing) (funs : Funs) (x : LVal) (s : Store)
    (args1 args2 : List Operand) (hx : x.loc < s.length) :
    invoke q funs (.variable x) args1 s = (.ok (.lv x), (materialize args1 s).2) ∧
    (invokeValue q funs (.variable x) args1 s).1 = read s x ∧
    (invokeValue q funs (.variable x) args2 s).1 = read s x ∧
    (invokeValue q funs (.variable x) [] s).1 = read s x ∧
    (∀ (v : Val) (args : List Operand) (s' : Store),
      invoke q funs (.constant v) args s' = (.ok (.rv v), (materialize args s').2) ∧
      (invokeValue q funs (.constant v) args s').1 = .ok v) ∧
    (∀ v : Val, read s x = .ok v → constantFrom s x = .ok (.constant v)) := by
  have hv : ∀ args : List Operand, (invokeValue q funs (.variable x) args s).1 = read s x := by
    intro args
    obtain ⟨t, ht⟩ := materialize_store args s
    simp [invokeValue, invoke, instantiates, eval, load, ht, read_append s t x hx]
  refine ⟨?_, hv args1, hv args2, hv [], ?_, ?_⟩
  · simp [invoke, instantiates, eval]
  · intro v args s'
    simp [invokeValue, invoke, instantiates, eval, load]
  · intro v h
    simp [constantFrom, h]

/-- C20 for a variable on a cell holding 7, called with two unrelated arguments. -/
theorem C20_leaves_ignore_arguments_witness :
    (⟨0, []⟩ : LVal).loc < ([some (.int 7)] : Store).length ∧
    (invokeValue leftFirst noFuns (.variable ⟨0, []⟩) [.rvalue (.int 1), .rvalue (.bool true)]
      [some (.int 7)]).1 = read [some (.int 7)] ⟨0, []⟩ ∧
    read [some (.int 7)] ⟨0, []⟩ = .ok (.int 7) :=
  ⟨by decide,
    (C20_leaves_ignore_arguments leftFirst noFuns ⟨0, []⟩ [some (.int 7)]
      [.rvalue (.int 1), .rvalue (.bool true)] [] (by decide)).2.1, rfl⟩

end expr
